import Mathlib

/-!
proxypool: the filtering pipeline of `pkg/provider/base.go`.

A shallow embedding of `Base.preFilter`, `checkErrorProxies` and `checkSpeed`, and of
the prober of `pkg/healthcheck/delaycheck.go`: `testDelay`, `CleanBadProxies` and the job
of `CleanBadProxiesWithGrpool`.

* Go strings are Lean strings; `strings.Contains` and `strings.Split` are
  defined on their character lists.
* A `proxy.Proxy` is an interface value holding a pointer: it is modelled as
  `Option Nat` (`none` is the nil interface), and the objects pointed to live
  in a heap `Nat → ProxyObj`, so that a rewrite of a display name is seen by
  every alias of the pointer.
* The process-wide variables `healthcheck.ProxyStats` and
  `healthcheck.SpeedExist` and the heap form the state `World`.
* `float64` is modelled by `F64`; `strconv.ParseFloat` and the `%5.2f`
  formatting of `fmt.Sprintf` are library functions and are parameters (`Lib`).
* What the network and the decoding do in one call of `testDelay` is a parameter
  (`Steps`), and so is `net.ParseIP`. A job of `CleanBadProxiesWithGrpool` is one step on
  the variables it shares with the other jobs.
-/

namespace ProxyPool

/-! ## Go strings -/

/-- Go `strings.Contains(s, substr)`. -/
def Contains (s substr : String) : Bool :=
  decide (substr.data <:+: s.data)

/-- The text before and the text after the first occurrence of `sep`. -/
def cutFirst (sep : List Char) : List Char → Option (List Char × List Char)
  | [] => if sep = [] then some ([], []) else none
  | c :: cs =>
    if sep <+: (c :: cs) then some ([], (c :: cs).drop sep.length)
    else
      match cutFirst sep cs with
      | some (a, r) => some (c :: a, r)
      | none => none

/-- The loop of Go `strings.Split` for a non-empty separator: cut at the first
occurrence and go on with the rest. The first argument bounds the number of
cuts; `Split` passes a bound that is never reached (`splitN_fuel`). -/
def splitN (sep : List Char) : Nat → List Char → List (List Char)
  | 0, s => [s]
  | n + 1, s =>
    match cutFirst sep s with
    | none => [s]
    | some (a, r) => a :: splitN sep n r

/-- Go `strings.Split(s, sep)` for a non-empty `sep` (the code only splits on
`","` and `" |"`). -/
def Split (s sep : String) : List String :=
  (splitN sep.data (s.data.length + 1) s.data).map String.mk

/-! ## float64 -/

/-- A `float64` value: NaN, the infinities, or a finite value given by the
rational number it denotes (the two zeros are one value: they compare equal). -/
inductive F64 where
  | nan : F64
  | ninf : F64
  | fin (q : ℚ) : F64
  | pinf : F64
deriving DecidableEq

namespace F64

/-- Go `x < y` on float64. -/
def lt : F64 → F64 → Bool
  | nan, _ => false
  | _, nan => false
  | ninf, ninf => false
  | ninf, _ => true
  | fin _, ninf => false
  | fin a, fin b => decide (a < b)
  | fin _, pinf => true
  | pinf, _ => false

/-- Go `x == y` on float64. -/
def eq : F64 → F64 → Bool
  | nan, _ => false
  | _, nan => false
  | ninf, ninf => true
  | fin a, fin b => decide (a = b)
  | pinf, pinf => true
  | _, _ => false

/-- Go `math.IsNaN`. -/
def IsNaN : F64 → Bool
  | nan => true
  | _ => false

/-- A finite value from an integer literal. -/
def ofInt (z : Int) : F64 := fin z

end F64

/-! ## Data model -/

/-- Modelled from the spec: package proxy is missing from the sources. An object behind
a `proxy.Proxy` has a mutable display name, a server host, a protocol type tag and an
identity; these are the parts this code reads or writes. -/
structure ProxyObj where
  /-- The display name `BaseInfo().Name`. -/
  Name : String
  /-- The server address `BaseInfo().Server`. -/
  Server : String
  /-- The protocol type tag returned by `TypeName()`. -/
  TypeName : String
  /-- Modelled from the spec: `Identifier()` is missing from the sources; the
  identity is "a stable key derived from connection parameters, not derived from
  the mutable display name", so it is a field that no name rewrite touches. -/
  Identifier : String
deriving DecidableEq

/-- A `proxy.Proxy` interface value: `none` is nil, `some a` points to heap cell `a`. -/
abbrev Proxy := Option Nat

/-- The type `proxy.ProxyList`, a slice of `Proxy` (the nil slice is treated apart, see `Base`). -/
abbrev ProxyList := List Proxy

/-- Modelled from the spec: the declaration of `healthcheck.Stat` is missing from the
sources; it has the identity key, the last delay, the last speed and the cumulative
selection count ("monotonically increasing integer", here a natural number). -/
structure Stat where
  Speed : F64
  Delay : Int
  ReqCount : Nat
  Id : String
deriving DecidableEq

/-- The mutable state: the objects behind the proxy pointers and the two process-wide
variables `ProxyStats` (the stat registry, a slice of `Stat`) and `SpeedExist` (the
"speed data exists" flag) of package healthcheck. -/
structure World where
  heap : Nat → ProxyObj
  ProxyStats : List Stat
  SpeedExist : Bool

/-- The struct `provider.Base`. `Proxies = none` is a nil slice behind the pointer. -/
structure Base where
  Proxies : Option ProxyList
  Types : String
  Country : String
  NotCountry : String
  Speed : String
  Filter : String
  StreamFilter : String
  StreamNotFilter : String

/-- The library functions used by the code. `ParseFloat s` is the pair of the value and
of whether the error is non-nil; `Sprintf52 x` is `fmt.Sprintf("%5.2f", x)`. -/
structure Lib where
  ParseFloat : String → F64 × Bool
  Sprintf52 : F64 → String

/-! ## Stat registry -/

/-- Modelled from the spec: `StatList.Find` is missing from the sources; "returns the
existing stat for an identity, or none". The first stat with that identity is the one
found. -/
def Find (id : String) : List Stat → Option Stat
  | [] => none
  | s :: ss => if s.Id = id then some s else Find id ss

/-- The in-place update through the pointer returned by `Find`: the first stat with
that identity is replaced by its image. -/
def updateFound (f : Stat → Stat) (id : String) : List Stat → List Stat
  | [] => []
  | s :: ss => if s.Id = id then f s :: ss else s :: updateFound f id ss

/-- Modelled from the spec: `Stat.UpdatePSCount` is missing from the sources;
"if a stat exists, increment its count". -/
def UpdatePSCount (s : Stat) : Stat := { s with ReqCount := s.ReqCount + 1 }

/-! ## checkErrorProxies and checkSpeed -/

/-- The function `checkErrorProxies`. -/
def checkErrorProxies : Option ProxyList → Bool
  | none => false
  | some [] => false
  | some (none :: _) => false
  | some (some _ :: _) => true

/-- The function `checkSpeed`. -/
def checkSpeed (lib : Lib) (speed : List String) : F64 × F64 :=
  let parsed : (F64 × Bool) × (F64 × Bool) :=
    match speed with
    | [s0] =>
      if s0 ≠ "" then (lib.ParseFloat s0, (F64.ofInt 1000, false))
      else ((F64.ofInt 0, false), (F64.ofInt 1000, false))
    | [s0, s1] => (lib.ParseFloat s0, lib.ParseFloat s1)
    | _ => ((F64.ofInt 0, false), (F64.ofInt 1000, false))
  let speedMin := if parsed.1.1.IsNaN || parsed.1.2 then F64.ofInt 0 else parsed.1.1
  let speedMax := if parsed.2.1.IsNaN || parsed.2.2 then F64.ofInt 1000 else parsed.2.1
  (speedMin, speedMax)

/-! ## preFilter -/

/-- The pattern of the stream tag `disney` (the Go literal escapes the plus sign). -/
def disneyPattern : String := "D\\+|Disney|disney|迪士尼"

/-- The pattern of the stream tag `netflix`. -/
def netflixPattern : String := "NF|奈飞|解锁|Netflix|NETFLIX|netflix"

/-- The alternatives of a pattern made of literals separated by `|`, where a
backslash makes the next character literal. The first argument is the
alternative being read, reversed. -/
def alternatives : List Char → List Char → List (List Char)
  | cur, [] => [cur.reverse]
  | cur, '\\' :: c :: cs => alternatives (c :: cur) cs
  | cur, '|' :: cs => cur.reverse :: alternatives [] cs
  | cur, c :: cs => alternatives (c :: cur) cs

/-- The test `regexp.MustCompile(pattern).MatchString(s)` for the patterns this code
builds (an alternation of literals, or the empty pattern): unanchored, so it holds
when `s` contains one of the alternatives. The empty pattern has the empty
alternative, which every string contains. -/
def MatchString (pattern s : String) : Bool :=
  (alternatives [] pattern.data).any fun alt => Contains s (String.mk alt)

/-- The loop over the stream tags, shared by the allow and the deny stage: `pattern`
is declared before the loop, is set when the tag is `disney` or `netflix`, and keeps
its value otherwise. The result is whether some iteration matched the name. -/
def streamLoop (name : String) : String → List String → Bool
  | _, [] => false
  | pattern, c :: cs =>
    let pattern1 := if c = "disney" then disneyPattern else pattern
    let pattern2 := if c = "netflix" then netflixPattern else pattern1
    if MatchString pattern2 name then true else streamLoop name pattern2 cs

/-- The local variables of `preFilter` that are fixed before the loop. -/
structure Locals where
  needFilterType : Bool
  needFilterCountry : Bool
  needFilterNotCountry : Bool
  needFilterSpeed : Bool
  needFilterFilter : Bool
  needStreamFilter : Bool
  needStreamNotFilter : Bool
  types : List String
  countries : List String
  notCountries : List String
  speedMin : F64
  speedMax : F64
  streams : List String
  nstreams : List String
  Filter : String

/-- Lines 41 to 77 of `preFilter`. The assignment under the test `b.Speed == ""` sets
`needFilterSpeed` to true, which it already is; it is cleared only when `checkSpeed`
returns a minimum equal to -1. -/
def locals (lib : Lib) (b : Base) : Locals :=
  let needFilterSpeed0 := if b.Speed = "" then true else true
  let speed := checkSpeed lib (Split b.Speed ",")
  { needFilterType := !(b.Types = "" || b.Types = "all")
    needFilterCountry := !(b.Country = "" || b.Country = "all")
    needFilterNotCountry := !(b.NotCountry = "")
    needFilterSpeed := if speed.1.eq (F64.ofInt (-1)) then false else needFilterSpeed0
    needFilterFilter := !(b.Filter = "")
    needStreamFilter := !(b.StreamFilter = "")
    needStreamNotFilter := !(b.StreamNotFilter = "")
    types := Split b.Types ","
    countries := Split b.Country ","
    notCountries := Split b.NotCountry ","
    speedMin := speed.1
    speedMax := speed.2
    streams := Split b.StreamFilter ","
    nstreams := Split b.StreamNotFilter ","
    Filter := b.Filter }

/-- The type stage (lines 81 to 92): false when the proxy goes to `exclude`. -/
def typeStage (L : Locals) (p : ProxyObj) : Bool :=
  !L.needFilterType || L.types.any fun t => p.TypeName = t

/-- The stream allow stage (lines 93 to 112). -/
def streamStage (L : Locals) (p : ProxyObj) : Bool :=
  !L.needStreamFilter || streamLoop p.Name "" L.streams

/-- The stream deny stage (lines 114 to 128). -/
def streamNotStage (L : Locals) (p : ProxyObj) : Bool :=
  !L.needStreamNotFilter || !streamLoop p.Name "" L.nstreams

/-- The country deny stage (lines 130 to 136). -/
def notCountryStage (L : Locals) (p : ProxyObj) : Bool :=
  !L.needFilterNotCountry || !L.notCountries.any fun c => Contains p.Name c

/-- The country allow stage (lines 138 to 149). -/
def countryStage (L : Locals) (p : ProxyObj) : Bool :=
  !L.needFilterCountry || L.countries.any fun c => Contains p.Name c

/-- The chain of tests on the filter code (lines 152 to 176): true when the proxy
goes to `exclude`. -/
def filterCodeExcludes (code name : String) : Bool :=
  if code = "r" then !Contains name "Relay"
  else if code = "p" then !Contains name "Pool"
  else if code = "rp" then !Contains name "Pool" && !Contains name "Relay"
  else if code = "nr" then Contains name "Relay"
  else if code = "np" then Contains name "Pool"
  else if code = "nrp" then Contains name "Pool" || Contains name "Relay"
  else false

/-- The custom-code stage (lines 151 to 177). -/
def filterStage (L : Locals) (p : ProxyObj) : Bool :=
  !L.needFilterFilter || !filterCodeExcludes L.Filter p.Name

/-- The six stages before the speed stage, in the order of the code; none of them
writes anything. -/
def earlyStages (L : Locals) (p : ProxyObj) : Bool :=
  typeStage L p && streamStage L p && streamNotStage L p && notCountryStage L p
    && countryStage L p && filterStage L p

/-- The name rewrite of lines 183 to 186 and 204 to 207: split on `" |"` and keep the
first piece when there is more than one. -/
def stripSpeedTag (name : String) : String :=
  let names := Split name " |"
  if names.length > 1 then names.headD name else name

/-- An assignment to `p.BaseInfo().Name`. -/
def setName (w : World) (a : Nat) (name : String) : World :=
  { w with heap := Function.update w.heap a { w.heap a with Name := name } }

/-- The text `fmt.Sprintf(" |%5.2fMb", speed)`. -/
def speedTag (lib : Lib) (speed : F64) : String :=
  " |" ++ lib.Sprintf52 speed ++ "Mb"

/-- Modelled from the spec: `AddToName` is missing from the sources; the annotation is
"appended after the base name", so the text is appended to the display name. -/
def AddToName (w : World) (a : Nat) (text : String) : World :=
  setName w a ((w.heap a).Name ++ text)

/-- The condition of line 179. -/
def speedActive (L : Locals) (w : World) : Bool :=
  L.needFilterSpeed && w.ProxyStats.length != 0 && w.SpeedExist

/-- The speed stage (lines 179 to 208) for the proxy at address `a`: the state it
leaves and whether the proxy goes on (false: `goto exclude`). -/
def speedStage (lib : Lib) (L : Locals) (w : World) (a : Nat) : World × Bool :=
  if speedActive L w then
    match Find (w.heap a).Identifier w.ProxyStats with
    | some ps =>
      if !ps.Speed.eq (F64.ofInt 0) then
        let w1 := setName w a (stripSpeedTag (w.heap a).Name)
        if L.speedMin.lt ps.Speed && ps.Speed.lt L.speedMax then
          (AddToName w1 a (speedTag lib ps.Speed), true)
        else (w1, false)
      else if !L.speedMin.eq (F64.ofInt 0) then (w, false)
      else (w, true)
    | none =>
      if !L.speedMin.eq (F64.ofInt 0) then (w, false) else (w, true)
  else (setName w a (stripSpeedTag (w.heap a).Name), true)

/-- The find-or-create of lines 212 to 219 on the registry, for the identity of the
selected proxy: the stat found has its count incremented in place, otherwise a stat with
that identity and `ReqCount: 1` (the other fields zero) is appended. -/
def registerRequest (id : String) (stats : List Stat) : List Stat :=
  match Find id stats with
  | some _ => updateFound UpdatePSCount id stats
  | none => stats ++ [{ Speed := F64.ofInt 0, Delay := 0, ReqCount := 1, Id := id }]

/-- The statistic update of lines 211 to 219. -/
def updateStatistic (w : World) (a : Nat) : World :=
  { w with ProxyStats := registerRequest (w.heap a).Identifier w.ProxyStats }

/-- One iteration of the loop for a non-nil proxy at address `a`: the state it leaves
and whether the proxy is appended to the result. -/
def visit (lib : Lib) (L : Locals) (w : World) (a : Nat) : World × Bool :=
  if earlyStages L (w.heap a) then
    match speedStage lib L w a with
    | (w1, true) => (updateStatistic w1 a, true)
    | (w1, false) => (w1, false)
  else (w, false)

/-- The loop of lines 80 to 221 over the remaining proxies, with the result
accumulated so far. A nil element makes the method calls of the iteration fault
(`none`). -/
def loop (lib : Lib) (L : Locals) : List Proxy → World → ProxyList → Option (World × ProxyList)
  | [], w, proxies => some (w, proxies)
  | none :: _, _, _ => none
  | some a :: rest, w, proxies =>
    match visit lib L w a with
    | (w1, true) => loop lib L rest w1 (proxies ++ [some a])
    | (w1, false) => loop lib L rest w1 proxies

/-- The method `Base.preFilter`: the receiver and the state it leaves, or `none` when
it faults. -/
def preFilter (lib : Lib) (b : Base) (w : World) : Option (Base × World) :=
  if !checkErrorProxies b.Proxies then some ({ b with Proxies := some [] }, w)
  else
    match loop lib (locals lib b) (b.Proxies.getD []) w [] with
    | none => none
    | some (w1, proxies) => some ({ b with Proxies := some proxies }, w1)

/-! ## A concrete library for evaluation -/

/-- The value of a string of decimal digits, if it is one. -/
def digitsValue : List Char → Option Nat
  | [] => none
  | cs => if cs.all Char.isDigit then some (cs.foldl (fun n c => 10 * n + (c.toNat - 48)) 0) else none

/-- The behaviour of `strconv.ParseFloat` on the strings used in the examples: an
optional sign followed by at most fifteen decimal digits has that integer as its exact
value and no error, and the empty string is a syntax error. Strings of any other shape
are not used; they are given the error result too. -/
def parseFloatDigits (s : String) : F64 × Bool :=
  let body : Bool × List Char :=
    match s.data with
    | '-' :: cs => (true, cs)
    | '+' :: cs => (false, cs)
    | cs => (false, cs)
  if body.2.length ≤ 15 then
    match digitsValue body.2 with
    | some n => (if body.1 then F64.ofInt (-(n : Int)) else F64.ofInt n, false)
    | none => (F64.ofInt 0, true)
  else (F64.ofInt 0, true)

/-- The decimal digits of a natural number, with at least `width` digits. -/
def digitsOf (width n : Nat) : String :=
  let ds := Nat.toDigits 10 n
  String.mk (List.replicate (width - ds.length) '0' ++ ds)

/-- The format `%5.2f` on the model: a finite value is rounded to the hundredths (ties
to even), written with two decimals and padded with blanks on the left to five
characters. -/
def sprintf52 : F64 → String
  | F64.nan => "  NaN"
  | F64.pinf => " +Inf"
  | F64.ninf => " -Inf"
  | F64.fin q =>
    let twice := 200 * q.num.natAbs
    let lo := twice / (2 * q.den)
    let rem := twice % (2 * q.den)
    let hundredths :=
      if rem < q.den then lo
      else if q.den < rem then lo + 1
      else if lo % 2 = 0 then lo else lo + 1
    let text := (if q.num < 0 then "-" else "") ++ digitsOf 1 (hundredths / 100) ++ "."
      ++ digitsOf 2 (hundredths % 100)
    String.mk (List.replicate (5 - text.length) ' ') ++ text

/-- The concrete library used to evaluate the code on examples. -/
def goLib : Lib := { ParseFloat := parseFloatDigits, Sprintf52 := sprintf52 }

/-- The speed 12.3 of the examples. -/
def speed12_3 : F64 := F64.fin (Rat.mk' 123 10 (by decide) (by decide))

/-! ## Concrete inputs -/

/-- A proxy object with the given display name, type tag and identity. -/
def mkProxy (name type id : String) : ProxyObj :=
  { Name := name, Server := "198.51.100.7", TypeName := type, Identifier := id }

/-- A heap from a list of objects: cell `a` holds the `a`-th object. -/
def heapOf (objs : List ProxyObj) : Nat → ProxyObj :=
  fun a => objs.getD a (mkProxy "" "" "")

/-- A query with every field empty. -/
def emptyQuery : Base :=
  { Proxies := none, Types := "", Country := "", NotCountry := "", Speed := "", Filter := "",
    StreamFilter := "", StreamNotFilter := "" }

/-- The three proxies of the example with the filter code `rp`. -/
def relayWorld : World :=
  { heap := heapOf [mkProxy "NodeA-Relay" "vmess" "a", mkProxy "NodeB-Pool" "ss" "b",
      mkProxy "NodeC-Plain" "trojan" "c"]
    ProxyStats := []
    SpeedExist := false }

/-- The query with the filter code `rp` over the three proxies. -/
def relayQuery : Base :=
  { emptyQuery with Proxies := some [some 0, some 1, some 2], Filter := "rp" }

/-- The query of the three-proxy example with the stream allow-list `hulu`, a tag that
names no known service. -/
def huluQuery : Base :=
  { emptyQuery with Proxies := some [some 0, some 1, some 2], StreamFilter := "hulu" }

/-- A query over a list whose first element is nil. -/
def nilFirstQuery : Base :=
  { emptyQuery with Proxies := some [none, some 0], Types := "vmess" }

/-- One proxy named X with identity x, a stat of speed 12.3 for it, and the
speed-data-exists flag set. -/
def speedWorld : World :=
  { heap := heapOf [mkProxy "X" "vmess" "x"]
    ProxyStats := [{ Speed := speed12_3, Delay := 0, ReqCount := 0, Id := "x" }]
    SpeedExist := true }

/-- The query with the speed range `5,20` over the single proxy. -/
def speedQuery5_20 : Base :=
  { emptyQuery with Proxies := some [some 0], Speed := "5,20" }

/-- The query with the type list `ss,vmess` and the country deny-list `Pool` over the
three proxies. -/
def typeQuery : Base :=
  { emptyQuery with
    Proxies := some [some 0, some 1, some 2], Types := "ss,vmess", NotCountry := "Pool" }

/-! ## Measures on the registry and on proxy lists -/

/-- The request count the registry holds for an identity, 0 when it has no stat. -/
def reqCount (stats : List Stat) (id : String) : Nat :=
  match Find id stats with
  | some s => s.ReqCount
  | none => 0

/-- The identities of the entries of a proxy list, in order. -/
def identities (heap : Nat → ProxyObj) (l : ProxyList) : List String :=
  l.filterMap fun p => p.map fun a => (heap a).Identifier

/-- The number of entries of a proxy list that have the given identity. -/
def countIdentity (heap : Nat → ProxyObj) (id : String) (l : ProxyList) : Nat :=
  (identities heap l).count id

/-- The registry after one request has been registered for each identity of a list. -/
def registerAll (ids : List String) (stats : List Stat) : List Stat :=
  ids.foldl (fun st id => registerRequest id st) stats

/-- Two proxies with the same identity y and a third with identity z; the registry has
a stat for y only. -/
def countWorld : World :=
  { heap := heapOf [mkProxy "Y1" "ss" "y", mkProxy "Y2" "ss" "y", mkProxy "Z" "ss" "z"]
    ProxyStats := [{ Speed := F64.ofInt 0, Delay := 40, ReqCount := 7, Id := "y" }]
    SpeedExist := false }

/-- The query without any filter over the three proxies of `countWorld`. -/
def countQuery : Base :=
  { emptyQuery with Proxies := some [some 0, some 1, some 2] }

/-- One proxy named X with identity x whose stat has the speed 2000, and the
speed-data-exists flag set. -/
def fastWorld : World :=
  { heap := heapOf [mkProxy "X" "vmess" "x"]
    ProxyStats := [{ Speed := F64.ofInt 2000, Delay := 0, ReqCount := 0, Id := "x" }]
    SpeedExist := true }

/-- The query with every field empty, the speed range included, over the single proxy. -/
def noSpeedQuery : Base :=
  { emptyQuery with Proxies := some [some 0] }

/-- The query with an empty minimum and the maximum 10 over the single proxy. -/
def emptyMinQuery : Base :=
  { emptyQuery with Proxies := some [some 0], Speed := ",10" }

/-- The query with the speed range `15,20` over the single proxy. -/
def speedQuery15_20 : Base :=
  { emptyQuery with Proxies := some [some 0], Speed := "15,20" }

/-- The query with the speed range `0,20` over the single proxy. -/
def speedQuery0_20 : Base :=
  { emptyQuery with Proxies := some [some 0], Speed := "0,20" }

/-- A proxy without a stat whose name carries an old annotation; the registry holds a
stat of speed 12.3 for another identity and the speed-data-exists flag is set. -/
def staleWorld : World :=
  { heap := heapOf [mkProxy "X |9.99Mb" "vmess" "u"]
    ProxyStats := [{ Speed := speed12_3, Delay := 0, ReqCount := 0, Id := "x" }]
    SpeedExist := true }

/-- Two proxies, the first with an old annotation in its name; no speed has ever been
recorded (the flag is unset) although the registry holds a stat. -/
def cleanupWorld : World :=
  { heap := heapOf [mkProxy "NodeA |3.21Mb" "ss" "a", mkProxy "NodeB" "vmess" "b"]
    ProxyStats := [{ Speed := F64.ofInt 0, Delay := 25, ReqCount := 1, Id := "a" }]
    SpeedExist := false }

/-- The query with the speed range `5` over the two proxies of `cleanupWorld`. -/
def speedQuery5 : Base :=
  { emptyQuery with Proxies := some [some 0, some 1], Speed := "5" }

/-! ## The prober of `pkg/healthcheck/delaycheck.go` -/

/-- The result of `net.ParseIP` as far as `isIPv6Address` looks at it: whether `To4()`
is non-nil. -/
inductive IP where
  | v4 : IP
  | v6 : IP
deriving DecidableEq

/-- The function `isIPv6Address`; `ParseIP` is the library function `net.ParseIP`
(`none` is the nil result). -/
def isIPv6Address (ParseIP : String → Option IP) (address : String) : Bool :=
  match ParseIP address with
  | none => false
  | some IP.v4 => false
  | some IP.v6 => true

/-- The entries of the decoded descriptor that `testDelay` reads with a type assertion:
whether `pmap["port"]` and `pmap["alterId"]` hold a `float64` and `pmap["server"]` holds
a `string`. -/
structure Decoded where
  portIsNumber : Bool
  alterIdIsNumber : Bool
  serverIsString : Bool
deriving DecidableEq

/-- What the external steps of one call of `testDelay` do: `json.Unmarshal` of the
descriptor (an error, or the decoded map), `proxy.GoodNodeThatClashUnsupported`,
`netConnectivity` (the interval and the error of the dial), `adapter.ParseProxy` (its
error) and the pair sent on the channel (the time since the start and the error of
`HTTPHeadViaProxy`). An error is `none` when it is nil. Durations are integers. -/
structure Steps where
  unmarshal : Except String Decoded
  unsupported : Bool
  dial : Int × Option String
  parseErr : Option String
  head : Int × Option String

/-- What a call of `testDelay` does: it faults (panics), or it returns a delay and an
error. -/
inductive Outcome where
  | fault : Outcome
  | ret (delay : Int) (err : Option String) : Outcome
deriving DecidableEq

/-- The function `testDelay`. A nil proxy faults at `p.String()`; the type assertions on
`port`, `alterId` (for the type `vmess`) and `server` (on the fallback path) fault when
the entry has another type or is missing; the receive from the channel always gets the
pair that the goroutine sends. -/
def testDelay (steps : Steps) (heap : Nat → ProxyObj) : Proxy → Outcome
  | none => Outcome.fault
  | some a =>
    match steps.unmarshal with
    | Except.error e => Outcome.ret 0 (some e)
    | Except.ok d =>
      if !d.portIsNumber then Outcome.fault
      else if (heap a).TypeName = "vmess" && !d.alterIdIsNumber then Outcome.fault
      else if steps.unsupported then
        if !d.serverIsString then Outcome.fault
        else
          match steps.dial with
          | (interval, none) => Outcome.ret interval none
          | (_, some e) => Outcome.ret 0 (some e)
      else
        match steps.parseErr with
        | some e => Outcome.ret 0 (some e)
        | none => Outcome.ret steps.head.1 steps.head.2

/-- The test `err == nil && delay != 0` of both probe passes. -/
def Outcome.success : Outcome → Option Int
  | Outcome.ret delay none => if delay ≠ 0 then some delay else none
  | _ => none

/-- Modelled from the spec: `Stat.UpdatePSDelay` is missing from the sources; "if a stat
exists, overwrite its delay". -/
def UpdatePSDelay (delay : Int) (s : Stat) : Stat := { s with Delay := delay }

/-- The find-or-create of both probe passes for the identity of an accepted proxy: the
stat found has its delay overwritten in place, otherwise a stat with that identity and
that delay (the other fields zero) is appended. -/
def recordDelay (id : String) (delay : Int) (stats : List Stat) : List Stat :=
  match Find id stats with
  | some _ => updateFound (UpdatePSDelay delay) id stats
  | none => stats ++ [{ Speed := F64.ofInt 0, Delay := delay, ReqCount := 0, Id := id }]

/-- The loop of `CleanBadProxies` over the remaining proxies; `env i` is what the
external steps do in the call of `testDelay` for the proxy at position `i`. A fault of
`testDelay` is not recovered here (`none`). -/
def cleanLoop (env : Nat → Steps) :
    Nat → List Proxy → World → ProxyList → Option (World × ProxyList)
  | _, [], w, cproxies => some (w, cproxies)
  | i, p :: rest, w, cproxies =>
    match testDelay (env i) w.heap p with
    | Outcome.fault => none
    | Outcome.ret delay err =>
      match (Outcome.ret delay err).success, p with
      | some d, some a =>
        cleanLoop env (i + 1) rest
          { w with ProxyStats := recordDelay (w.heap a).Identifier d w.ProxyStats }
          (cproxies ++ [p])
      | _, _ => cleanLoop env (i + 1) rest w cproxies

/-- The function `CleanBadProxies`: the returned list and the state it leaves, or `none`
when a call of `testDelay` faults. -/
def CleanBadProxies (env : Nat → Steps) (proxies : List Proxy) (w : World) :
    Option (World × ProxyList) :=
  cleanLoop env 0 proxies w []

/-- The variables shared by the jobs of `CleanBadProxiesWithGrpool`: the state, the list
`cproxies`, and the number of calls of `pool.JobDone`. -/
structure PassState where
  world : World
  cproxies : ProxyList
  done : Nat

/-- One job of `CleanBadProxiesWithGrpool` for the proxy `pp`, as a step on the shared
variables: the part between `m.Lock()` and `m.Unlock()` is run as one step, a fault of
`testDelay` is recovered by the deferred function, and the deferred `pool.JobDone()` runs
in every case. -/
def job (ParseIP : String → Option IP) (steps : Steps) (pp : Proxy) (s : PassState) :
    PassState :=
  let s1 : PassState :=
    match (testDelay steps s.world.heap pp).success, pp with
    | some d, some a =>
      if !isIPv6Address ParseIP (s.world.heap a).Server then
        { s with
          cproxies := s.cproxies ++ [pp]
          world := { s.world with
            ProxyStats := recordDelay (s.world.heap a).Identifier d s.world.ProxyStats } }
      else s
    | _, _ => s
  { s1 with done := s1.done + 1 }

/-- The jobs of one pass of `CleanBadProxiesWithGrpool`, in the order in which they take
the mutex; each job comes with what the external steps do in its call of `testDelay`. -/
def runJobs (ParseIP : String → Option IP) : List (Proxy × Steps) → PassState → PassState
  | [], s => s
  | (pp, steps) :: rest, s => runJobs ParseIP rest (job ParseIP steps pp s)

/-- The state of the shared variables when `CleanBadProxiesWithGrpool` starts. -/
def startPass (w : World) : PassState := { world := w, cproxies := [], done := 0 }

/-- The proxies of a list whose call of `testDelay` returns a nil error and a nonzero
delay, in the order of the list; positions are counted from `i`. -/
def successfulFrom (env : Nat → Steps) (heap : Nat → ProxyObj) (i : Nat)
    (proxies : List Proxy) : List Proxy :=
  ((proxies.enumFrom i).filter fun ip => (testDelay (env ip.1) heap ip.2).success.isSome).map
    Prod.snd

/-- The steps of a call of `testDelay` whose request through the proxy succeeds after
the given time. -/
def stepsOk (elapsed : Int) : Steps :=
  { unmarshal := Except.ok { portIsNumber := true, alterIdIsNumber := true, serverIsString := true }
    unsupported := false
    dial := (0, none)
    parseErr := none
    head := (elapsed, none) }

/-- The steps of a call of `testDelay` whose request through the proxy fails with an
error after the given time. -/
def stepsHeadError (elapsed : Int) : Steps :=
  { stepsOk elapsed with head := (elapsed, some "context deadline exceeded") }

/-- The steps of a call of `testDelay` on a descriptor without a numeric port. -/
def stepsNoPort : Steps :=
  { stepsOk 0 with
    unmarshal := Except.ok { portIsNumber := false, alterIdIsNumber := true, serverIsString := true } }

/-- The behaviour of `net.ParseIP` on the two addresses of the examples: the first is an
IPv6 literal, the second an IPv4 address. Other strings are not used (nil). -/
def parseIPSample (s : String) : Option IP :=
  if s = "2001:db8::1" then some IP.v6
  else if s = "198.51.100.7" then some IP.v4
  else none

/-- Three proxies: one with an IPv6 server, two with an IPv4 server; the registry holds
a stat for the second. -/
def probeWorld : World :=
  { heap := heapOf [{ Name := "Six", Server := "2001:db8::1", TypeName := "ss", Identifier := "six" },
      mkProxy "Four" "vmess" "four", mkProxy "Other" "trojan" "other"]
    ProxyStats := [{ Speed := speed12_3, Delay := 70, ReqCount := 4, Id := "four" }]
    SpeedExist := true }

/-! ## One iteration of the loop in closed form -/

/-- The measured speed the registry holds for an identity: the speed of the stat found
when it is not zero. -/
def measured (stats : List Stat) (id : String) : Option F64 :=
  match Find id stats with
  | some ps => if ps.Speed.eq (F64.ofInt 0) then none else some ps.Speed
  | none => none

/-- The verdict of the speed stage, given whether it is active and the measured speed. -/
def speedVerdict (L : Locals) (active : Bool) (m : Option F64) : Bool :=
  if active then
    match m with
    | some s => L.speedMin.lt s && s.lt L.speedMax
    | none => L.speedMin.eq (F64.ofInt 0)
  else true

/-- The name the speed stage leaves, given whether it is active and the measured speed. -/
def rename (lib : Lib) (L : Locals) (active : Bool) (m : Option F64) (name : String) :
    String :=
  if active then
    match m with
    | some s =>
      if L.speedMin.lt s && s.lt L.speedMax then stripSpeedTag name ++ speedTag lib s
      else stripSpeedTag name
    | none => name
  else stripSpeedTag name

/-- The speed stage cannot change its activity during a run: the registry is not empty,
or the speed flag is unset, or the stage is switched off. -/
def steadySpeed (L : Locals) (w : World) : Prop :=
  w.ProxyStats ≠ [] ∨ w.SpeedExist = false ∨ L.needFilterSpeed = false

/-- The query with the speed range `5,20` and the country deny-list `Mb` over the single
proxy. -/
def denyMbQuery : Base :=
  { emptyQuery with Proxies := some [some 0], Speed := "5,20", NotCountry := "Mb" }

/-- One proxy, an empty registry, and the speed flag set. -/
def emptyRegistryWorld : World :=
  { heap := heapOf [mkProxy "X" "vmess" "x"], ProxyStats := [], SpeedExist := true }

/-- The query with the speed range `5` over the single proxy. -/
def speedQuery5Single : Base :=
  { emptyQuery with Proxies := some [some 0], Speed := "5" }

/-- The object of a proxy after its first iteration in a run that starts in the state
`w`: renamed by the speed stage when it passes the earlier stages, untouched otherwise. -/
def afterVisit (lib : Lib) (L : Locals) (w : World) (a : Nat) : ProxyObj :=
  if earlyStages L (w.heap a) = true then
    { w.heap a with
      Name := rename lib L (speedActive L w) (measured w.ProxyStats (w.heap a).Identifier)
        (w.heap a).Name }
  else w.heap a

/-- The verdict of an iteration on a proxy in a run that starts in the state `w`. -/
def verdict (L : Locals) (w : World) (a : Nat) : Bool :=
  earlyStages L (w.heap a) &&
    speedVerdict L (speedActive L w) (measured w.ProxyStats (w.heap a).Identifier)

/-- A verdict on pointers as a test on the entries of a proxy list. -/
def keptBy (K : Nat → Bool) : Proxy → Bool
  | some a => K a
  | none => false

/-- What holds of a state reached in a run that started in the state `w0`, after the
proxies of `vis` have been visited: the activity of the speed stage and the measured
speeds are those of `w0`, every object is the one of `w0` or the one its first iteration
leaves, and it is the latter for the proxies visited. -/
def runInv (lib : Lib) (L : Locals) (w0 : World) (vis : List Proxy) (w : World) : Prop :=
  steadySpeed L w ∧ speedActive L w = speedActive L w0 ∧
    (∀ id, measured w.ProxyStats id = measured w0.ProxyStats id) ∧
    (∀ a, w.heap a = w0.heap a ∨ w.heap a = afterVisit lib L w0 a) ∧
    (∀ a, some a ∈ vis → w.heap a = afterVisit lib L w0 a)

/-- What holds of a state reached in a second run, which starts in the state `w1` that a
first run from `w0` has left: the activity of the speed stage and the measured speeds are
those of `w0`, and the objects are those of `w1`. -/
def rerunInv (L : Locals) (w0 w1 : World) (w : World) : Prop :=
  steadySpeed L w ∧ speedActive L w = speedActive L w0 ∧
    (∀ id, measured w.ProxyStats id = measured w0.ProxyStats id) ∧
    w.heap = w1.heap

/-! ## Lemmas on the embedding -/

theorem loop_cons_some (lib : Lib) (L : Locals) (a : Nat) (rest : List Proxy) (w : World)
    (acc : ProxyList) :
    loop lib L (some a :: rest) w acc =
      loop lib L rest (visit lib L w a).1
        (if (visit lib L w a).2 then acc ++ [some a] else acc) := by
  rcases h : visit lib L w a with ⟨w1, k⟩
  cases k <;> simp [loop, h]

/-- The loop returns exactly on the lists without a nil element. -/
theorem loop_isSome_iff (lib : Lib) (L : Locals) (l : List Proxy) :
    ∀ (w : World) (acc : ProxyList),
      (loop lib L l w acc).isSome = true ↔ ∀ p ∈ l, p ≠ none := by
  induction l with
  | nil => intro w acc; simp [loop]
  | cons p rest ih =>
    intro w acc
    cases p with
    | none => simp [loop]
    | some a => rw [loop_cons_some, ih]; simp

/-- The result of the loop is what was accumulated, followed by a subsequence of the
list it ran over. -/
theorem loop_sublist (lib : Lib) (L : Locals) (l : List Proxy) :
    ∀ (w : World) (acc : ProxyList) (w1 : World) (r : ProxyList),
      loop lib L l w acc = some (w1, r) → ∃ k, r = acc ++ k ∧ k.Sublist l := by
  induction l with
  | nil =>
    intro w acc w1 r h
    simp only [loop, Option.some.injEq, Prod.mk.injEq] at h
    exact ⟨[], by simp [h.2], List.Sublist.slnil⟩
  | cons p rest ih =>
    intro w acc w1 r h
    cases p with
    | none => simp [loop] at h
    | some a =>
      rw [loop_cons_some] at h
      obtain ⟨k, hk, hs⟩ := ih _ _ _ _ h
      by_cases hv : (visit lib L w a).2 = true
      · rw [if_pos hv] at hk
        exact ⟨some a :: k, by simp [hk], hs.cons₂ _⟩
      · rw [if_neg hv] at hk
        exact ⟨k, hk, hs.cons _⟩

theorem F64.lt_irrefl (x : F64) : x.lt x = false := by
  cases x <;> simp [F64.lt]

/-- With the speed stage inactive the proxy is kept exactly when it passes the six
earlier stages. -/
theorem visit_kept_of_inactive (lib : Lib) (L : Locals) (w : World) (a : Nat)
    (h : speedActive L w = false) : (visit lib L w a).2 = earlyStages L (w.heap a) := by
  unfold visit speedStage
  rw [h]
  cases earlyStages L (w.heap a) <;> simp

theorem filterStage_locals (lib : Lib) (b : Base) (p : ProxyObj) :
    filterStage (locals lib b) p = !filterCodeExcludes b.Filter p.Name := by
  unfold filterStage locals
  by_cases h : b.Filter = ""
  · simp [h, filterCodeExcludes]
  · simp [h]

theorem typeStage_locals (lib : Lib) (b : Base) (p : ProxyObj) :
    typeStage (locals lib b) p = true ↔
      (b.Types = "" ∨ b.Types = "all" ∨ ∃ t ∈ Split b.Types ",", p.TypeName = t) := by
  have h1 : (locals lib b).needFilterType = !(b.Types = "" || b.Types = "all") := rfl
  have h2 : (locals lib b).types = Split b.Types "," := rfl
  unfold typeStage
  rw [h1, h2]
  generalize Split b.Types "," = ts
  by_cases e1 : b.Types = ""
  · simp [e1]
  by_cases e2 : b.Types = "all"
  · simp [e2]
  simp [e1, e2]

theorem notCountryStage_locals (lib : Lib) (b : Base) (p : ProxyObj) :
    notCountryStage (locals lib b) p = true ↔
      (b.NotCountry = "" ∨ ∀ c ∈ Split b.NotCountry ",", Contains p.Name c = false) := by
  have h1 : (locals lib b).needFilterNotCountry = !(b.NotCountry = "") := rfl
  have h2 : (locals lib b).notCountries = Split b.NotCountry "," := rfl
  unfold notCountryStage
  rw [h1, h2]
  generalize Split b.NotCountry "," = ts
  by_cases e1 : b.NotCountry = ""
  · simp [e1]
  simp [e1]

theorem countryStage_locals (lib : Lib) (b : Base) (p : ProxyObj) :
    countryStage (locals lib b) p = true ↔
      (b.Country = "" ∨ b.Country = "all" ∨
        ∃ c ∈ Split b.Country ",", Contains p.Name c = true) := by
  have h1 : (locals lib b).needFilterCountry = !(b.Country = "" || b.Country = "all") := rfl
  have h2 : (locals lib b).countries = Split b.Country "," := rfl
  unfold countryStage
  rw [h1, h2]
  generalize Split b.Country "," = ts
  by_cases e1 : b.Country = ""
  · simp [e1]
  by_cases e2 : b.Country = "all"
  · simp [e2]
  simp [e1, e2]

theorem streamStage_off (lib : Lib) (b : Base) (p : ProxyObj) (hs : b.StreamFilter = "") :
    streamStage (locals lib b) p = true := by
  have h1 : (locals lib b).needStreamFilter = !(b.StreamFilter = "") := rfl
  unfold streamStage
  rw [h1]
  simp [hs]

theorem streamNotStage_off (lib : Lib) (b : Base) (p : ProxyObj)
    (hs : b.StreamNotFilter = "") : streamNotStage (locals lib b) p = true := by
  have h1 : (locals lib b).needStreamNotFilter = !(b.StreamNotFilter = "") := rfl
  unfold streamNotStage
  rw [h1]
  simp [hs]

theorem filterStage_off (lib : Lib) (b : Base) (p : ProxyObj) (hf : b.Filter = "") :
    filterStage (locals lib b) p = true := by
  have h1 : (locals lib b).needFilterFilter = !(b.Filter = "") := rfl
  unfold filterStage
  rw [h1]
  simp [hf]

theorem F64.IsNaN_ofInt (z : Int) : (F64.ofInt z).IsNaN = false := rfl

theorem Find_updateFound (f : Stat → Stat) (hf : ∀ s, (f s).Id = s.Id) (id id1 : String)
    (stats : List Stat) :
    Find id1 (updateFound f id stats) =
      if id1 = id then (Find id1 stats).map f else Find id1 stats := by
  induction stats with
  | nil => simp [Find, updateFound]
  | cons s ss ih =>
    by_cases h1 : s.Id = id
    · by_cases h2 : id1 = id
      · simp [Find, updateFound, h1, h2, hf]
      · have h3 : ¬ s.Id = id1 := fun h => h2 (h ▸ h1)
        have h4 : ¬ id = id1 := fun h => h2 h.symm
        simp [Find, updateFound, h1, h2, h3, h4, hf]
    · by_cases h2 : s.Id = id1
      · by_cases h3 : id1 = id
        · exact absurd (h2.trans h3) h1
        · simp [Find, updateFound, h1, h2, h3]
      · simp only [Find, updateFound, h1, h2, if_false]
        exact ih

theorem Find_append (id : String) (stats extra : List Stat) :
    Find id (stats ++ extra) =
      match Find id stats with
      | some s => some s
      | none => Find id extra := by
  induction stats with
  | nil => simp [Find]
  | cons s ss ih =>
    by_cases h : s.Id = id
    · simp [Find, h]
    · simp only [List.cons_append, Find, h, if_false]
      exact ih

/-- The stat found after one request has been registered. -/
theorem Find_registerRequest (id id1 : String) (stats : List Stat) :
    Find id1 (registerRequest id stats) =
      match Find id1 stats with
      | some s => some (if id1 = id then UpdatePSCount s else s)
      | none =>
        if id1 = id then some { Speed := F64.ofInt 0, Delay := 0, ReqCount := 1, Id := id }
        else none := by
  unfold registerRequest
  rcases hid : Find id stats with _ | s0
  · simp only
    rw [Find_append]
    rcases h1 : Find id1 stats with _ | s1
    · by_cases e : id1 = id
      · simp [Find, e]
      · have e1 : ¬ id = id1 := fun h => e h.symm
        simp [Find, e, e1]
    · by_cases e : id1 = id
      · rw [e, hid] at h1; simp at h1
      · simp [e]
  · simp only
    rw [Find_updateFound UpdatePSCount (fun _ => rfl)]
    by_cases e : id1 = id
    · rw [e, hid]; simp
    · rcases h1 : Find id1 stats with _ | s1 <;> simp [e]

/-- The stat found after a request has been registered for each identity of a list. -/
theorem Find_registerAll (ids : List String) :
    ∀ (stats : List Stat) (id : String),
      Find id (registerAll ids stats) =
        match Find id stats with
        | some s => some { s with ReqCount := s.ReqCount + ids.count id }
        | none =>
          if ids.count id = 0 then none
          else some { Speed := F64.ofInt 0, Delay := 0, ReqCount := ids.count id, Id := id } := by
  induction ids with
  | nil =>
    intro stats id
    rcases h : Find id stats with _ | s <;> simp [registerAll, h]
  | cons i rest ih =>
    intro stats id
    have hfold : registerAll (i :: rest) stats = registerAll rest (registerRequest i stats) := rfl
    rw [hfold, ih, Find_registerRequest]
    rcases h : Find id stats with _ | s
    · by_cases e : id = i
      · subst e
        simp [Nat.add_comm]
      · have e1 : ¬ i = id := fun h => e h.symm
        simp [e, e1]
    · by_cases e : id = i
      · subst e
        simp [UpdatePSCount, Nat.add_comm, Nat.add_left_comm]
      · have e1 : ¬ i = id := fun h => e h.symm
        simp [e, e1]

theorem setName_Identifier (w : World) (a : Nat) (name : String) (a1 : Nat) :
    ((setName w a name).heap a1).Identifier = (w.heap a1).Identifier := by
  unfold setName
  by_cases h : a1 = a
  · subst h; simp
  · simp [Function.update, h]

theorem speedStage_Identifier (lib : Lib) (L : Locals) (w : World) (a a1 : Nat) :
    (((speedStage lib L w a).1).heap a1).Identifier = (w.heap a1).Identifier := by
  unfold speedStage
  split_ifs <;> (try split) <;> (try split_ifs) <;> simp [AddToName, setName_Identifier]

theorem speedStage_ProxyStats (lib : Lib) (L : Locals) (w : World) (a : Nat) :
    ((speedStage lib L w a).1).ProxyStats = w.ProxyStats := by
  unfold speedStage
  split_ifs <;> (try split) <;> (try split_ifs) <;> simp [AddToName, setName]

/-- An iteration changes no identity. -/
theorem visit_Identifier (lib : Lib) (L : Locals) (w : World) (a a1 : Nat) :
    (((visit lib L w a).1).heap a1).Identifier = (w.heap a1).Identifier := by
  unfold visit
  by_cases he : earlyStages L (w.heap a) = true
  · rw [if_pos he]
    have h1 := speedStage_Identifier lib L w a a1
    rcases hs : speedStage lib L w a with ⟨w1, k⟩
    rw [hs] at h1
    cases k <;> simpa [updateStatistic] using h1
  · rw [if_neg he]

/-- An iteration registers one request for the identity of the proxy when it keeps it,
and leaves the registry as it is otherwise. -/
theorem visit_ProxyStats (lib : Lib) (L : Locals) (w : World) (a : Nat) :
    ((visit lib L w a).1).ProxyStats =
      if (visit lib L w a).2 then registerRequest (w.heap a).Identifier w.ProxyStats
      else w.ProxyStats := by
  unfold visit
  by_cases he : earlyStages L (w.heap a) = true
  · rw [if_pos he]
    have h1 := speedStage_ProxyStats lib L w a
    have h2 := speedStage_Identifier lib L w a a
    rcases hs : speedStage lib L w a with ⟨w1, k⟩
    rw [hs] at h1 h2
    simp only at h1 h2
    cases k
    · simpa using h1
    · simp [updateStatistic, h1, h2]
  · rw [if_neg he]; simp

theorem identities_congr (h1 h2 : Nat → ProxyObj)
    (h : ∀ a, (h1 a).Identifier = (h2 a).Identifier) (l : ProxyList) :
    identities h1 l = identities h2 l := by
  unfold identities
  congr 1
  funext p
  cases p <;> simp [h]

/-- The state after the loop: identities are unchanged, and the registry is the one
before with one request registered for each proxy appended to the result. -/
theorem loop_registry (lib : Lib) (L : Locals) (l : List Proxy) :
    ∀ (w : World) (acc : ProxyList) (w1 : World) (r : ProxyList),
      loop lib L l w acc = some (w1, r) →
      ∃ k, r = acc ++ k ∧ (∀ a1, (w1.heap a1).Identifier = (w.heap a1).Identifier) ∧
        w1.ProxyStats = registerAll (identities w.heap k) w.ProxyStats := by
  induction l with
  | nil =>
    intro w acc w1 r h
    simp only [loop, Option.some.injEq, Prod.mk.injEq] at h
    refine ⟨[], by simp [h.2], fun a1 => by rw [h.1], ?_⟩
    rw [← h.1]
    rfl
  | cons p rest ih =>
    intro w acc w1 r h
    cases p with
    | none => simp [loop] at h
    | some a =>
      rw [loop_cons_some] at h
      obtain ⟨k, hk, hid, hst⟩ := ih _ _ _ _ h
      have hid1 : ∀ a1, (w1.heap a1).Identifier = (w.heap a1).Identifier := fun a1 => by
        rw [hid a1, visit_Identifier]
      have hcongr := identities_congr _ _ (visit_Identifier lib L w a) k
      rw [hcongr, visit_ProxyStats] at hst
      by_cases hv : (visit lib L w a).2 = true
      · rw [if_pos hv] at hk hst
        refine ⟨some a :: k, by simp [hk], hid1, ?_⟩
        rw [hst]
        simp [identities, registerAll]
      · rw [if_neg hv] at hk hst
        exact ⟨k, hk, hid1, hst⟩

/-- A cut is at an occurrence of the separator, and no occurrence starts before it. -/
theorem cutFirst_some (sep : List Char) (hsep : sep ≠ []) :
    ∀ (s a r : List Char), cutFirst sep s = some (a, r) →
      s = a ++ sep ++ r ∧ ∀ a2 r2, s = a2 ++ sep ++ r2 → a.length ≤ a2.length := by
  intro s
  induction s with
  | nil => intro a r h; simp [cutFirst, hsep] at h
  | cons c cs ih =>
    intro a r h
    unfold cutFirst at h
    by_cases hp : sep <+: c :: cs
    · rw [if_pos hp] at h
      simp only [Option.some.injEq, Prod.mk.injEq] at h
      obtain ⟨t, ht⟩ := hp
      refine ⟨?_, fun a2 r2 _ => by simp [← h.1]⟩
      rw [← h.1, ← h.2, ← ht]
      simp
    · rw [if_neg hp] at h
      rcases hc : cutFirst sep cs with _ | ⟨a1, r1⟩
      · rw [hc] at h; simp at h
      · rw [hc] at h
        simp only [Option.some.injEq, Prod.mk.injEq] at h
        obtain ⟨h1, h2⟩ := ih a1 r1 hc
        refine ⟨?_, ?_⟩
        · rw [← h.1, ← h.2, h1]; simp
        · intro a2 r2 he
          rcases a2 with _ | ⟨c2, a3⟩
          · exact absurd ⟨r2, by simpa using he.symm⟩ hp
          · simp only [List.cons_append, List.cons.injEq] at he
            have := h2 a3 r2 (by simpa using he.2)
            rw [← h.1]
            simp only [List.length_cons]
            omega

/-- There is no cut exactly when the separator does not occur. -/
theorem cutFirst_none (sep : List Char) (hsep : sep ≠ []) :
    ∀ (s : List Char), cutFirst sep s = none ↔ ¬ sep <:+: s := by
  intro s
  induction s with
  | nil =>
    simp only [cutFirst, hsep, if_false, true_iff]
    intro h
    exact hsep (List.eq_nil_of_infix_nil h)
  | cons c cs ih =>
    unfold cutFirst
    by_cases hp : sep <+: c :: cs
    · rw [if_pos hp]
      constructor
      · intro h; simp at h
      · intro h; exact absurd hp.isInfix h
    · rw [if_neg hp, List.infix_cons_iff]
      rcases hc : cutFirst sep cs with _ | ⟨a1, r1⟩
      · simp only [true_iff, not_or]
        exact ⟨hp, ih.1 hc⟩
      · constructor
        · intro h; simp at h
        · intro h
          have hn : ¬ sep <:+: cs := fun h1 => h (Or.inr h1)
          rw [ih.2 hn] at hc
          simp at hc

theorem splitN_ne_nil (sep : List Char) (n : Nat) (s : List Char) : splitN sep n s ≠ [] := by
  cases n with
  | zero => simp [splitN]
  | succ n =>
    unfold splitN
    rcases cutFirst sep s with _ | ⟨a, r⟩ <;> simp

/-- The name rewrite keeps the text before the first cut at `" |"`, and the whole name
when there is no cut. -/
theorem stripSpeedTag_eq (name : String) :
    stripSpeedTag name =
      match cutFirst " |".data name.data with
      | some (a, _) => String.mk a
      | none => name := by
  unfold stripSpeedTag Split
  simp only [splitN]
  rcases hc : cutFirst " |".data name.data with _ | ⟨a, r⟩
  · simp
  · simp only [List.map_cons, List.length_cons, List.length_map, List.headD_cons]
    split_ifs with hif
    · rfl
    · exfalso
      apply hif
      have hpos := List.length_pos.2 (splitN_ne_nil [' ', '|'] name.data.length r)
      omega

/-- The name rewrite in words: a name that does not contain `" |"` is unchanged; a name
that is `pre ++ " |" ++ post`, with no occurrence of `" |"` starting before this one,
becomes `pre`. -/
theorem stripSpeedTag_spec (name : String) :
    (Contains name " |" = false → stripSpeedTag name = name) ∧
    (∀ pre post : List Char, name.data = pre ++ " |".data ++ post →
      (∀ p2 q2 : List Char, name.data = p2 ++ " |".data ++ q2 → pre.length ≤ p2.length) →
      stripSpeedTag name = String.mk pre) := by
  have hsep : " |".data ≠ [] := by decide
  rw [stripSpeedTag_eq]
  constructor
  · intro h
    have hn : ¬ " |".data <:+: name.data := by simpa [Contains] using h
    rw [(cutFirst_none _ hsep _).2 hn]
  · intro pre post he hmin
    rcases hc : cutFirst " |".data name.data with _ | ⟨a, r⟩
    · exact absurd ⟨pre, post, he.symm⟩ ((cutFirst_none _ hsep _).1 hc)
    · obtain ⟨h1, h2⟩ := cutFirst_some _ hsep _ _ _ hc
      have hl : a.length = pre.length := le_antisymm (h2 pre post he) (hmin a r h1)
      have : a = pre := by
        have := h1.symm.trans he
        simp only [List.append_assoc] at this
        exact (List.append_inj this hl).1
      simp [this]

/-- The bound passed by `Split` is enough: with a non-empty separator every larger bound
gives the same pieces. -/
theorem splitN_fuel (sep : List Char) (hsep : sep ≠ []) :
    ∀ (n m : Nat) (s : List Char), s.length < n → s.length < m →
      splitN sep n s = splitN sep m s := by
  intro n
  induction n with
  | zero => intro m s h; omega
  | succ n ih =>
    intro m s hn hm
    cases m with
    | zero => omega
    | succ m =>
      unfold splitN
      rcases hc : cutFirst sep s with _ | ⟨a, r⟩
      · rfl
      · obtain ⟨h1, _⟩ := cutFirst_some sep hsep s a r hc
        have hlen : r.length < s.length := by
          have := congrArg List.length h1
          simp only [List.length_append] at this
          have hpos : 0 < sep.length := List.length_pos.2 hsep
          omega
        simp only
        rw [ih m r (by omega) (by omega)]

theorem setName_Name (w : World) (a : Nat) (name : String) :
    ((setName w a name).heap a).Name = name := by
  simp [setName]

/-- The decision of an iteration whose proxy has passed the earlier stages while the
speed stage is active. -/
theorem visit_kept_of_active (lib : Lib) (L : Locals) (w : World) (a : Nat)
    (hearly : earlyStages L (w.heap a) = true) (hactive : speedActive L w = true) :
    (visit lib L w a).2 =
      match Find (w.heap a).Identifier w.ProxyStats with
      | some ps =>
        if ps.Speed.eq (F64.ofInt 0) then L.speedMin.eq (F64.ofInt 0)
        else (L.speedMin.lt ps.Speed && ps.Speed.lt L.speedMax)
      | none => L.speedMin.eq (F64.ofInt 0) := by
  unfold visit speedStage
  rw [hearly, hactive]
  simp only [if_true]
  rcases Find (w.heap a).Identifier w.ProxyStats with _ | ps
  · by_cases hm : L.speedMin.eq (F64.ofInt 0) = true <;> simp [hm]
  · by_cases hs : ps.Speed.eq (F64.ofInt 0) = true
    · by_cases hm : L.speedMin.eq (F64.ofInt 0) = true <;> simp [hs, hm]
    · by_cases hr : (L.speedMin.lt ps.Speed && ps.Speed.lt L.speedMax) = true
      · simp only [hs, hr, if_true, if_false, Bool.not_eq_true, Bool.not_false]
        simp
      · simp only [hs, hr, if_true, if_false, Bool.not_eq_true, Bool.not_false]
        simp [hr]

/-- A speed range that starts with a comma has an empty first component. -/
theorem Split_comma (s : String) (t : List Char) (hs : s.data = ',' :: t) :
    ∃ rest, Split s "," = "" :: rest := by
  refine ⟨(splitN ",".data s.data.length t).map String.mk, ?_⟩
  unfold Split
  rw [hs]
  have hc : cutFirst ",".data (',' :: t) = some ([], t) := by
    unfold cutFirst
    have hp : ",".data <+: ',' :: t := ⟨t, rfl⟩
    rw [if_pos hp]
    rfl
  show List.map String.mk (splitN ",".data ((',' :: t).length + 1) (',' :: t)) = _
  rw [splitN, hc]
  simp

/-- The minimum of a range whose first component is empty is 0, when the library
reports an error on the empty string. -/
theorem checkSpeed_empty_min (lib : Lib) (rest : List String)
    (hparse : (lib.ParseFloat "").2 = true) :
    (checkSpeed lib ("" :: rest)).1 = F64.ofInt 0 := by
  rcases rest with _ | ⟨m, _ | ⟨m2, r⟩⟩
  · simp [checkSpeed, F64.IsNaN_ofInt]
  · simp [checkSpeed, hparse]
  · simp [checkSpeed, F64.IsNaN_ofInt]

/-- The result of the name rewrite does not contain `" |"`. -/
theorem stripSpeedTag_no_sep (name : String) :
    ¬ " |".data <:+: (stripSpeedTag name).data := by
  have hsep : " |".data ≠ [] := by decide
  rw [stripSpeedTag_eq]
  rcases hc : cutFirst " |".data name.data with _ | ⟨a, r⟩
  · exact (cutFirst_none _ hsep _).1 hc
  · obtain ⟨h1, h2⟩ := cutFirst_some _ hsep _ _ _ hc
    intro hin
    obtain ⟨p, q, hpq⟩ := hin
    have hpq1 : p ++ " |".data ++ q = a := hpq
    have hle := h2 p (q ++ " |".data ++ r) (by rw [h1, ← hpq1]; simp [List.append_assoc])
    have hl := congrArg List.length hpq1
    have h2len : " |".data.length = 2 := by decide
    rw [List.length_append, List.length_append, h2len] at hl
    omega

/-- A name without `" |"` is left as it is. -/
theorem stripSpeedTag_of_no_sep (name : String) (h : ¬ " |".data <:+: name.data) :
    stripSpeedTag name = name :=
  (stripSpeedTag_spec name).1 (by simpa [Contains] using h)

/-- The name rewrite is idempotent. -/
theorem stripSpeedTag_idem (name : String) :
    stripSpeedTag (stripSpeedTag name) = stripSpeedTag name :=
  stripSpeedTag_of_no_sep _ (stripSpeedTag_no_sep name)

/-- The rewrite of a name made of a text without `" |"` followed by `" |"` and anything
gives the text back. -/
theorem stripSpeedTag_append (base rest : String) (h : ¬ " |".data <:+: base.data) :
    stripSpeedTag (base ++ (" |" ++ rest)) = base := by
  have hspec := (stripSpeedTag_spec (base ++ (" |" ++ rest))).2 base.data rest.data
    (by simp [String.data_append])
  rw [hspec]
  intro p2 q2 he
  simp only [String.data_append, List.append_assoc] at he
  rcases List.append_eq_append_iff.1 he with ⟨c, hc1, _⟩ | ⟨c, hc1, hc2⟩
  · rw [hc1]; simp
  · rcases c with _ | ⟨x, _ | ⟨y, c2⟩⟩
    · rw [hc1]; simp
    · exfalso
      simp only [List.cons_append, List.nil_append, List.cons.injEq] at hc2
      exact absurd hc2.2.1 (by decide)
    · exfalso
      simp only [List.cons_append, List.nil_append, List.cons.injEq] at hc2
      apply h
      refine ⟨p2, c2, ?_⟩
      have h0 : " |".data = [' ', '|'] := rfl
      rw [hc1, h0, ← hc2.1, ← hc2.2.1]
      simp

/-- An iteration with the speed stage inactive: a proxy that passes the earlier stages
has its name rewritten and its request registered, any other proxy leaves the state as
it is. -/
theorem visit_of_inactive (lib : Lib) (L : Locals) (w : World) (a : Nat)
    (h : speedActive L w = false) :
    visit lib L w a =
      if earlyStages L (w.heap a) = true then
        (updateStatistic (setName w a (stripSpeedTag (w.heap a).Name)) a, true)
      else (w, false) := by
  unfold visit speedStage
  rw [h]
  simp

/-- An iteration whose proxy fails one of the earlier stages leaves the state as it is. -/
theorem visit_of_excluded (lib : Lib) (L : Locals) (w : World) (a : Nat)
    (h : earlyStages L (w.heap a) = false) : visit lib L w a = (w, false) := by
  unfold visit
  rw [h]
  simp

theorem setName_heap_other (w : World) (a : Nat) (name : String) (a1 : Nat) (h : a1 ≠ a) :
    (setName w a name).heap a1 = w.heap a1 := by
  simp [setName, Function.update, h]

theorem speedStage_heap_other (lib : Lib) (L : Locals) (w : World) (a a1 : Nat)
    (h : a1 ≠ a) : ((speedStage lib L w a).1).heap a1 = w.heap a1 := by
  unfold speedStage
  split_ifs <;> (try split) <;> (try split_ifs) <;>
    simp [AddToName, setName_heap_other _ _ _ _ h]

/-- An iteration writes to no object but the one of its proxy. -/
theorem visit_heap_other (lib : Lib) (L : Locals) (w : World) (a a1 : Nat) (h : a1 ≠ a) :
    ((visit lib L w a).1).heap a1 = w.heap a1 := by
  unfold visit
  by_cases he : earlyStages L (w.heap a) = true
  · rw [if_pos he]
    have h1 := speedStage_heap_other lib L w a a1 h
    rcases hs : speedStage lib L w a with ⟨w1, k⟩
    rw [hs] at h1
    cases k <;> simpa [updateStatistic] using h1
  · rw [if_neg he]

theorem speedStage_SpeedExist (lib : Lib) (L : Locals) (w : World) (a : Nat) :
    ((speedStage lib L w a).1).SpeedExist = w.SpeedExist := by
  unfold speedStage
  split_ifs <;> (try split) <;> (try split_ifs) <;> simp [AddToName, setName]

/-- An iteration does not write the speed flag. -/
theorem visit_SpeedExist (lib : Lib) (L : Locals) (w : World) (a : Nat) :
    ((visit lib L w a).1).SpeedExist = w.SpeedExist := by
  unfold visit
  by_cases he : earlyStages L (w.heap a) = true
  · rw [if_pos he]
    have h1 := speedStage_SpeedExist lib L w a
    rcases hs : speedStage lib L w a with ⟨w1, k⟩
    rw [hs] at h1
    cases k <;> simpa [updateStatistic] using h1
  · rw [if_neg he]

theorem speedActive_of_flag_unset (L : Locals) (w : World) (h : w.SpeedExist = false) :
    speedActive L w = false := by
  simp [speedActive, h]

/-- With the speed flag unset, the loop leaves every name either as it was or rewritten,
and rewritten for every proxy of the result. -/
theorem loop_cleanup_names (lib : Lib) (L : Locals) (n0 : Nat → String) (l : List Proxy) :
    ∀ (w : World) (acc : ProxyList) (w1 : World) (r : ProxyList),
      w.SpeedExist = false →
      loop lib L l w acc = some (w1, r) →
      (∀ a, (w.heap a).Name = n0 a ∨ (w.heap a).Name = stripSpeedTag (n0 a)) →
      (∀ a, some a ∈ acc → (w.heap a).Name = stripSpeedTag (n0 a)) →
      (∀ a, (w1.heap a).Name = n0 a ∨ (w1.heap a).Name = stripSpeedTag (n0 a)) ∧
      (∀ a, some a ∈ r → (w1.heap a).Name = stripSpeedTag (n0 a)) := by
  induction l with
  | nil =>
    intro w acc w1 r _ h h1 h2
    simp only [loop, Option.some.injEq, Prod.mk.injEq] at h
    rw [← h.1, ← h.2]
    exact ⟨h1, h2⟩
  | cons p rest ih =>
    intro w acc w1 r hflag h h1 h2
    cases p with
    | none => simp [loop] at h
    | some a =>
      rw [loop_cons_some] at h
      have hin := speedActive_of_flag_unset L w hflag
      have hv := visit_of_inactive lib L w a hin
      have hflag1 : (visit lib L w a).1.SpeedExist = false := by
        rw [visit_SpeedExist]; exact hflag
      by_cases he : earlyStages L (w.heap a) = true
      · rw [if_pos he] at hv
        have hname : ∀ a1, ((visit lib L w a).1.heap a1).Name =
            if a1 = a then stripSpeedTag (w.heap a).Name else (w.heap a1).Name := by
          intro a1
          rw [hv]
          by_cases e : a1 = a
          · subst e; simp [updateStatistic, setName_Name]
          · simp [updateStatistic, setName_heap_other _ _ _ _ e, e]
        have hstrip : stripSpeedTag (w.heap a).Name = stripSpeedTag (n0 a) := by
          rcases h1 a with e | e
          · rw [e]
          · rw [e, stripSpeedTag_idem]
        refine ih _ _ _ _ hflag1 h ?_ ?_
        · intro a1
          rw [hname]
          by_cases e : a1 = a
          · subst e; simp [hstrip]
          · simp only [e, if_false]; exact h1 a1
        · intro a1 hmem
          rw [hname]
          by_cases e : a1 = a
          · subst e; simp [hstrip]
          · simp only [e, if_false]
            have hk : (visit lib L w a).2 = true := by rw [hv]
            rw [if_pos hk] at hmem
            rcases List.mem_append.1 hmem with hm | hm
            · exact h2 a1 hm
            · simp at hm; exact absurd hm e
      · rw [if_neg he] at hv
        rw [hv] at h hflag1
        simp only [Bool.false_eq_true, if_false] at h
        exact ih _ _ _ _ hflag h h1 h2

/-- A proxy that fails one of the earlier stages on the name it has before the loop has
the same object after the loop and is not appended to the result. -/
theorem loop_excluded (lib : Lib) (L : Locals) (a : Nat) (l : List Proxy) :
    ∀ (w : World) (acc : ProxyList) (w1 : World) (r : ProxyList),
      earlyStages L (w.heap a) = false →
      loop lib L l w acc = some (w1, r) →
      w1.heap a = w.heap a ∧ (some a ∈ r → some a ∈ acc) := by
  induction l with
  | nil =>
    intro w acc w1 r _ h
    simp only [loop, Option.some.injEq, Prod.mk.injEq] at h
    rw [← h.1, ← h.2]
    exact ⟨rfl, id⟩
  | cons p rest ih =>
    intro w acc w1 r he h
    cases p with
    | none => simp [loop] at h
    | some a1 =>
      rw [loop_cons_some] at h
      by_cases e : a = a1
      · subst e
        rw [visit_of_excluded lib L w a he] at h
        simp only [Bool.false_eq_true, if_false] at h
        exact ih _ _ _ _ he h
      · have hheap := visit_heap_other lib L w a1 a e
        obtain ⟨h3, h4⟩ := ih _ _ _ _ (by rw [hheap]; exact he) h
        refine ⟨by rw [h3, hheap], fun hm => ?_⟩
        have := h4 hm
        by_cases hk : (visit lib L w a1).2 = true
        · rw [if_pos hk] at this
          rcases List.mem_append.1 this with hm1 | hm1
          · exact hm1
          · simp at hm1; exact absurd hm1 e
        · rw [if_neg hk] at this
          exact this

/-- On a list that passes `checkErrorProxies` and has no nil element, `preFilter` returns
what the loop returns. -/
theorem preFilter_returns (lib : Lib) (b : Base) (w : World) (l : ProxyList)
    (hl : b.Proxies = some l) (hvalid : checkErrorProxies (some l) = true)
    (hnn : ∀ p ∈ l, p ≠ none) :
    ∃ w1 r, loop lib (locals lib b) l w [] = some (w1, r) ∧
      preFilter lib b w = some ({ b with Proxies := some r }, w1) := by
  have hsome := (loop_isSome_iff lib (locals lib b) l w []).2 hnn
  rcases hloop : loop lib (locals lib b) l w [] with _ | ⟨w1, r⟩
  · rw [hloop] at hsome; simp at hsome
  · refine ⟨w1, r, rfl, ?_⟩
    unfold preFilter
    rw [hl, hvalid]
    simp [hloop]

/-- The stat found after a delay has been recorded. -/
theorem Find_recordDelay (id id1 : String) (delay : Int) (stats : List Stat) :
    Find id1 (recordDelay id delay stats) =
      match Find id1 stats with
      | some s => some (if id1 = id then UpdatePSDelay delay s else s)
      | none =>
        if id1 = id then some { Speed := F64.ofInt 0, Delay := delay, ReqCount := 0, Id := id }
        else none := by
  unfold recordDelay
  rcases hid : Find id stats with _ | s0
  · simp only
    rw [Find_append]
    rcases h1 : Find id1 stats with _ | s1
    · by_cases e : id1 = id
      · simp [Find, e]
      · have e1 : ¬ id = id1 := fun h => e h.symm
        simp [Find, e, e1]
    · by_cases e : id1 = id
      · rw [e, hid] at h1; simp at h1
      · simp [e]
  · simp only
    rw [Find_updateFound (UpdatePSDelay delay) (fun _ => rfl)]
    by_cases e : id1 = id
    · rw [e, hid]; simp
    · rcases h1 : Find id1 stats with _ | s1 <;> simp [e]

theorem Find_eq_none_iff (id : String) (stats : List Stat) :
    Find id stats = none ↔ id ∉ stats.map Stat.Id := by
  induction stats with
  | nil => simp [Find]
  | cons s ss ih =>
    by_cases h : s.Id = id
    · simp [Find, h]
    · have h1 : ¬ id = s.Id := fun e => h e.symm
      simp only [Find, h, if_false, List.map_cons, List.mem_cons, not_or, ih]
      exact ⟨fun hm => ⟨h1, hm⟩, fun hm => hm.2⟩

/-- An in-place update that keeps the identity of a stat keeps the identities of the
registry. -/
theorem map_Id_updateFound (f : Stat → Stat) (hf : ∀ s, (f s).Id = s.Id) (id : String)
    (stats : List Stat) : (updateFound f id stats).map Stat.Id = stats.map Stat.Id := by
  induction stats with
  | nil => simp [updateFound]
  | cons s ss ih =>
    by_cases h : s.Id = id
    · simp [updateFound, h, hf]
    · simp [updateFound, h, ih]

/-- The identities of the registry after a find-or-create: the same, or the new identity
at the end when it had no stat. -/
theorem map_Id_registerRequest (id : String) (stats : List Stat) :
    (registerRequest id stats).map Stat.Id =
      if id ∈ stats.map Stat.Id then stats.map Stat.Id else stats.map Stat.Id ++ [id] := by
  unfold registerRequest
  rcases h : Find id stats with _ | s
  · rw [if_neg ((Find_eq_none_iff id stats).1 h)]
    simp
  · have hm : id ∈ stats.map Stat.Id := by
      by_contra hn
      rw [(Find_eq_none_iff id stats).2 hn] at h
      simp at h
    rw [if_pos hm]
    exact map_Id_updateFound UpdatePSCount (fun _ => rfl) id stats

theorem map_Id_recordDelay (id : String) (delay : Int) (stats : List Stat) :
    (recordDelay id delay stats).map Stat.Id =
      if id ∈ stats.map Stat.Id then stats.map Stat.Id else stats.map Stat.Id ++ [id] := by
  unfold recordDelay
  rcases h : Find id stats with _ | s
  · rw [if_neg ((Find_eq_none_iff id stats).1 h)]
    simp
  · have hm : id ∈ stats.map Stat.Id := by
      by_contra hn
      rw [(Find_eq_none_iff id stats).2 hn] at h
      simp at h
    rw [if_pos hm]
    exact map_Id_updateFound (UpdatePSDelay delay) (fun _ => rfl) id stats

/-- A list of identities to which an identity is added at the end when it is not in it:
no identity is lost, the added one is in it, and no duplicate appears. -/
theorem ids_insert (id : String) (ids : List String) :
    (ids.Nodup → (if id ∈ ids then ids else ids ++ [id]).Nodup) ∧
    id ∈ (if id ∈ ids then ids else ids ++ [id]) ∧
    (∀ x ∈ ids, x ∈ (if id ∈ ids then ids else ids ++ [id])) := by
  by_cases h : id ∈ ids
  · simp only [if_pos h]
    exact ⟨fun hn => hn, h, fun x hx => hx⟩
  · simp only [if_neg h]
    refine ⟨fun hn => ?_, by simp, fun x hx => by simp [hx]⟩
    rw [List.nodup_append]
    refine ⟨hn, by simp, ?_⟩
    intro x hx hy
    simp only [List.mem_singleton] at hy
    exact h (hy ▸ hx)

/-- Registering the requests of a list of identities keeps the registry free of
duplicates, keeps the identities it had and gives a stat to every identity of the list. -/
theorem registerAll_ids (ids : List String) :
    ∀ stats : List Stat,
      ((stats.map Stat.Id).Nodup → ((registerAll ids stats).map Stat.Id).Nodup) ∧
      (∀ x ∈ stats.map Stat.Id, x ∈ (registerAll ids stats).map Stat.Id) ∧
      (∀ x ∈ ids, x ∈ (registerAll ids stats).map Stat.Id) := by
  induction ids with
  | nil => intro stats; exact ⟨fun hn => hn, fun x hx => hx, fun x hx => by simp at hx⟩
  | cons i rest ih =>
    intro stats
    have hfold : registerAll (i :: rest) stats = registerAll rest (registerRequest i stats) := rfl
    obtain ⟨h1, h2, h3⟩ := ih (registerRequest i stats)
    obtain ⟨k1, k2, k3⟩ := ids_insert i (stats.map Stat.Id)
    rw [← map_Id_registerRequest] at k1 k2 k3
    rw [hfold]
    refine ⟨fun hn => h1 (k1 hn), fun x hx => h2 x (k3 x hx), fun x hx => ?_⟩
    rcases List.mem_cons.1 hx with e | e
    · rw [e]; exact h2 i k2
    · exact h3 x e

theorem count_eq_one_of_nodup_mem (id : String) (ids : List String) (hn : ids.Nodup)
    (hm : id ∈ ids) : ids.count id = 1 :=
  List.count_eq_one_of_mem hn hm

theorem cleanLoop_fault (env : Nat → Steps) (i : Nat) (p : Proxy) (rest : List Proxy)
    (w : World) (acc : ProxyList) (h : testDelay (env i) w.heap p = Outcome.fault) :
    cleanLoop env i (p :: rest) w acc = none := by
  simp [cleanLoop, h]

theorem success_of_fault : Outcome.fault.success = none := rfl

theorem testDelay_nil (steps : Steps) (heap : Nat → ProxyObj) :
    testDelay steps heap none = Outcome.fault := rfl

/-- An iteration of `CleanBadProxies` whose call returns an error or a zero delay leaves
the state and the list as they are. -/
theorem cleanLoop_rejected (env : Nat → Steps) (i : Nat) (p : Proxy) (rest : List Proxy)
    (w : World) (acc : ProxyList) (hf : testDelay (env i) w.heap p ≠ Outcome.fault)
    (h : (testDelay (env i) w.heap p).success = none) :
    cleanLoop env i (p :: rest) w acc = cleanLoop env (i + 1) rest w acc := by
  rcases ho : testDelay (env i) w.heap p with _ | ⟨delay, err⟩
  · exact absurd ho hf
  · rw [ho] at h
    simp [cleanLoop, ho, h]

/-- An iteration of `CleanBadProxies` whose call returns a nil error and a nonzero delay
appends the proxy and records the delay for its identity. -/
theorem cleanLoop_accepted (env : Nat → Steps) (i : Nat) (a : Nat) (rest : List Proxy)
    (w : World) (acc : ProxyList) (d : Int)
    (h : (testDelay (env i) w.heap (some a)).success = some d) :
    cleanLoop env i (some a :: rest) w acc =
      cleanLoop env (i + 1) rest
        { w with ProxyStats := recordDelay (w.heap a).Identifier d w.ProxyStats }
        (acc ++ [some a]) := by
  rcases ho : testDelay (env i) w.heap (some a) with _ | ⟨delay, err⟩
  · rw [ho] at h; simp [Outcome.success] at h
  · rw [ho] at h
    simp [cleanLoop, ho, h]

/-- The loop of `CleanBadProxies` when no call faults: it returns, the list is the one
accumulated followed by the proxies whose call succeeded, the objects and the speed flag
are untouched, and the registry has had a delay recorded for each of them. -/
theorem cleanLoop_spec (env : Nat → Steps) (l : List Proxy) :
    ∀ (i : Nat) (w : World) (acc : ProxyList),
      (∀ ip ∈ l.enumFrom i, testDelay (env ip.1) w.heap ip.2 ≠ Outcome.fault) →
      ∃ w1, cleanLoop env i l w acc = some (w1, acc ++ successfulFrom env w.heap i l) ∧
        w1.heap = w.heap ∧ w1.SpeedExist = w.SpeedExist ∧
        ((w.ProxyStats.map Stat.Id).Nodup → (w1.ProxyStats.map Stat.Id).Nodup) ∧
        (∀ x ∈ w.ProxyStats.map Stat.Id, x ∈ w1.ProxyStats.map Stat.Id) ∧
        (∀ a, some a ∈ successfulFrom env w.heap i l →
          (w.heap a).Identifier ∈ w1.ProxyStats.map Stat.Id) := by
  induction l with
  | nil =>
    intro i w acc _
    exact ⟨w, by simp [cleanLoop, successfulFrom], rfl, rfl, fun h => h, fun x hx => hx,
      fun a ha => by simp [successfulFrom] at ha⟩
  | cons p rest ih =>
    intro i w acc hnf
    have hnf0 : testDelay (env i) w.heap p ≠ Outcome.fault :=
      hnf (i, p) (by simp [List.enumFrom_cons])
    have hnf1 : ∀ ip ∈ rest.enumFrom (i + 1), testDelay (env ip.1) w.heap ip.2 ≠ Outcome.fault :=
      fun ip hip => hnf ip (by simp [List.enumFrom_cons, hip])
    rcases hs : (testDelay (env i) w.heap p).success with _ | d
    · obtain ⟨w1, h1, h2, h3, h4, h5, h6⟩ := ih (i + 1) w acc hnf1
      refine ⟨w1, ?_, h2, h3, h4, h5, ?_⟩
      · rw [cleanLoop_rejected env i p rest w acc hnf0 hs, h1]
        simp [successfulFrom, List.enumFrom_cons, hs]
      · intro a ha
        apply h6
        simpa [successfulFrom, List.enumFrom_cons, hs] using ha
    · rcases p with _ | a
      · rw [testDelay_nil] at hs; simp [Outcome.success] at hs
      · obtain ⟨w1, h1, h2, h3, h4, h5, h6⟩ := ih (i + 1)
          { w with ProxyStats := recordDelay (w.heap a).Identifier d w.ProxyStats }
          (acc ++ [some a]) hnf1
        obtain ⟨k1, k2, k3⟩ := ids_insert (w.heap a).Identifier (w.ProxyStats.map Stat.Id)
        rw [← map_Id_recordDelay (w.heap a).Identifier d] at k1 k2 k3
        refine ⟨w1, ?_, h2, h3, fun hn => h4 (k1 hn), fun x hx => h5 x (k3 x hx), ?_⟩
        · rw [cleanLoop_accepted env i a rest w acc d hs, h1]
          simp [successfulFrom, List.enumFrom_cons, hs]
        · intro a1 ha
          simp only [successfulFrom, List.enumFrom_cons, List.filter_cons, hs, Option.isSome_some,
            if_true, List.map_cons, List.mem_cons] at ha
          rcases ha with e | e
          · simp only [Option.some.injEq] at e
            rw [e]
            exact h5 _ k2
          · exact h6 a1 (by simpa [successfulFrom] using e)

/-- A job whose call of `testDelay` faults, returns an error or returns a zero delay only
counts as done. -/
theorem job_rejected (ParseIP : String → Option IP) (steps : Steps) (pp : Proxy)
    (s : PassState) (h : (testDelay steps s.world.heap pp).success = none) :
    job ParseIP steps pp s = { s with done := s.done + 1 } := by
  unfold job
  rw [h]

/-- A job whose proxy has an IPv6 server only counts as done. -/
theorem job_ipv6 (ParseIP : String → Option IP) (steps : Steps) (a : Nat) (s : PassState)
    (h : isIPv6Address ParseIP (s.world.heap a).Server = true) :
    job ParseIP steps (some a) s = { s with done := s.done + 1 } := by
  unfold job
  rcases (testDelay steps s.world.heap (some a)).success with _ | d
  · rfl
  · simp [h]

/-- A job whose call succeeds for a proxy without an IPv6 server appends the proxy and
records the delay for its identity. -/
theorem job_accepted (ParseIP : String → Option IP) (steps : Steps) (a : Nat) (s : PassState)
    (d : Int) (h : (testDelay steps s.world.heap (some a)).success = some d)
    (h6 : isIPv6Address ParseIP (s.world.heap a).Server = false) :
    job ParseIP steps (some a) s =
      { world := { s.world with
          ProxyStats := recordDelay (s.world.heap a).Identifier d s.world.ProxyStats }
        cproxies := s.cproxies ++ [some a]
        done := s.done + 1 } := by
  unfold job
  rw [h]
  simp [h6]

/-- The three ways a job can go. -/
theorem job_cases (ParseIP : String → Option IP) (steps : Steps) (pp : Proxy) (s : PassState) :
    job ParseIP steps pp s = { s with done := s.done + 1 } ∨
    ∃ a d, pp = some a ∧ (testDelay steps s.world.heap pp).success = some d ∧
      isIPv6Address ParseIP (s.world.heap a).Server = false ∧
      job ParseIP steps pp s =
        { world := { s.world with
            ProxyStats := recordDelay (s.world.heap a).Identifier d s.world.ProxyStats }
          cproxies := s.cproxies ++ [some a]
          done := s.done + 1 } := by
  rcases hs : (testDelay steps s.world.heap pp).success with _ | d
  · exact Or.inl (job_rejected ParseIP steps pp s hs)
  · rcases pp with _ | a
    · rw [testDelay_nil] at hs; simp [Outcome.success] at hs
    · by_cases h6 : isIPv6Address ParseIP (s.world.heap a).Server = true
      · exact Or.inl (job_ipv6 ParseIP steps a s h6)
      · simp only [Bool.not_eq_true] at h6
        exact Or.inr ⟨a, d, rfl, rfl, h6, job_accepted ParseIP steps a s d hs h6⟩

/-- A job writes no object. -/
theorem job_heap (ParseIP : String → Option IP) (steps : Steps) (pp : Proxy) (s : PassState) :
    (job ParseIP steps pp s).world.heap = s.world.heap := by
  rcases job_cases ParseIP steps pp s with h | ⟨a, d, _, _, _, h⟩ <;> rw [h]

/-- What a job does to the state and to the list depends on the state and the list only,
not on the count of jobs done. -/
theorem job_congr (ParseIP : String → Option IP) (steps : Steps) (pp : Proxy)
    (s t : PassState) (hw : s.world = t.world) (hc : s.cproxies = t.cproxies) :
    (job ParseIP steps pp s).world = (job ParseIP steps pp t).world ∧
    (job ParseIP steps pp s).cproxies = (job ParseIP steps pp t).cproxies := by
  rcases hs : (testDelay steps t.world.heap pp).success with _ | d
  · rw [job_rejected ParseIP steps pp t hs, job_rejected ParseIP steps pp s (by rw [hw]; exact hs)]
    exact ⟨hw, hc⟩
  · rcases pp with _ | a
    · rw [testDelay_nil] at hs; simp [Outcome.success] at hs
    · by_cases h6 : isIPv6Address ParseIP (t.world.heap a).Server = true
      · rw [job_ipv6 ParseIP steps a t h6, job_ipv6 ParseIP steps a s (by rw [hw]; exact h6)]
        exact ⟨hw, hc⟩
      · simp only [Bool.not_eq_true] at h6
        rw [job_accepted ParseIP steps a t d hs h6,
          job_accepted ParseIP steps a s d (by rw [hw]; exact hs) (by rw [hw]; exact h6)]
        simp only [hw, hc, and_self]

/-- Every job of a pass is counted as done. -/
theorem runJobs_done (ParseIP : String → Option IP) (js : List (Proxy × Steps)) :
    ∀ s : PassState, (runJobs ParseIP js s).done = s.done + js.length := by
  induction js with
  | nil => intro s; simp [runJobs]
  | cons j rest ih =>
    intro s
    rcases j with ⟨pp, steps⟩
    have hd : (job ParseIP steps pp s).done = s.done + 1 := by
      rcases job_cases ParseIP steps pp s with h | ⟨a, d, _, _, _, h⟩ <;> rw [h]
    simp only [runJobs, List.length_cons]
    rw [ih, hd]
    omega

/-- A pass leaves the same state and the same list as the pass without the jobs whose
call of `testDelay` faults. -/
theorem runJobs_skip_faults (ParseIP : String → Option IP) (heap : Nat → ProxyObj)
    (js : List (Proxy × Steps)) :
    ∀ s t : PassState, s.world = t.world → s.cproxies = t.cproxies → s.world.heap = heap →
      (runJobs ParseIP js s).world =
        (runJobs ParseIP (js.filter fun j => decide (testDelay j.2 heap j.1 ≠ Outcome.fault))
          t).world ∧
      (runJobs ParseIP js s).cproxies =
        (runJobs ParseIP (js.filter fun j => decide (testDelay j.2 heap j.1 ≠ Outcome.fault))
          t).cproxies := by
  induction js with
  | nil => intro s t hw hc _; exact ⟨hw, hc⟩
  | cons j rest ih =>
    intro s t hw hc hh
    rcases j with ⟨pp, steps⟩
    have hheap : (job ParseIP steps pp s).world.heap = heap := by rw [job_heap, hh]
    by_cases hf : testDelay steps heap pp = Outcome.fault
    · have hj : job ParseIP steps pp s = { s with done := s.done + 1 } :=
        job_rejected ParseIP steps pp s (by rw [hh, hf]; rfl)
      simp only [runJobs, List.filter_cons, hf, ne_eq, not_true_eq_false, decide_False,
        Bool.false_eq_true, if_false]
      exact ih _ t (by rw [hj]; exact hw) (by rw [hj]; exact hc) hheap
    · obtain ⟨c1, c2⟩ := job_congr ParseIP steps pp s t hw hc
      simp only [runJobs, List.filter_cons, hf, ne_eq, not_false_eq_true, decide_True, if_true]
      exact ih _ _ c1 c2 hheap

/-- A loop of `CleanBadProxies` that returns has had no faulting call. -/
theorem cleanLoop_no_fault (env : Nat → Steps) (l : List Proxy) :
    ∀ (i : Nat) (w : World) (acc : ProxyList) (x : World × ProxyList),
      cleanLoop env i l w acc = some x →
      ∀ ip ∈ l.enumFrom i, testDelay (env ip.1) w.heap ip.2 ≠ Outcome.fault := by
  induction l with
  | nil => intro i w acc x _ ip hip; simp at hip
  | cons p rest ih =>
    intro i w acc x h ip hip
    have hnf : testDelay (env i) w.heap p ≠ Outcome.fault := by
      intro hf
      rw [cleanLoop_fault env i p rest w acc hf] at h
      simp at h
    simp only [List.enumFrom_cons, List.mem_cons] at hip
    rcases hip with e | e
    · rw [e]; exact hnf
    · rcases hs : (testDelay (env i) w.heap p).success with _ | d
      · rw [cleanLoop_rejected env i p rest w acc hnf hs] at h
        exact ih _ _ _ _ h ip e
      · rcases p with _ | a
        · rw [testDelay_nil] at hs; simp [Outcome.success] at hs
        · rw [cleanLoop_accepted env i a rest w acc d hs] at h
          exact ih _ _ _ _ h ip e

/-- One iteration in closed form: a proxy that fails an earlier stage leaves the state as
it is; otherwise its name is the one the speed stage leaves, and it is kept and its
request registered exactly when the verdict of the speed stage is true. -/
theorem visit_eq (lib : Lib) (L : Locals) (w : World) (a : Nat) :
    visit lib L w a =
      if earlyStages L (w.heap a) = true then
        if speedVerdict L (speedActive L w) (measured w.ProxyStats (w.heap a).Identifier) = true
        then
          (updateStatistic (setName w a (rename lib L (speedActive L w)
            (measured w.ProxyStats (w.heap a).Identifier) (w.heap a).Name)) a, true)
        else
          (setName w a (rename lib L (speedActive L w)
            (measured w.ProxyStats (w.heap a).Identifier) (w.heap a).Name), false)
      else (w, false) := by
  by_cases he : earlyStages L (w.heap a) = true
  · rw [if_pos he]
    unfold visit speedStage speedVerdict rename measured
    rw [he]
    by_cases hact : speedActive L w = true
    · rw [hact]
      simp only [if_true]
      rcases hf : Find (w.heap a).Identifier w.ProxyStats with _ | ps
      · simp only
        by_cases hm : L.speedMin.eq (F64.ofInt 0) = true
        · simp [hm, setName]
        · simp [hm, setName]
      · simp only
        by_cases hs : ps.Speed.eq (F64.ofInt 0) = true
        · simp only [hs, if_true, Bool.not_true, Bool.false_eq_true, if_false]
          by_cases hm : L.speedMin.eq (F64.ofInt 0) = true
          · simp [hm, setName]
          · simp [hm, setName]
        · simp only [hs, if_false, Bool.not_eq_true, Bool.not_false, if_true]
          by_cases hr : (L.speedMin.lt ps.Speed && ps.Speed.lt L.speedMax) = true
          · have hr1 : L.speedMin.lt ps.Speed = true ∧ ps.Speed.lt L.speedMax = true := by
              simpa using hr
            simp [AddToName, setName, hr1]
          · have hr1 : ¬ (L.speedMin.lt ps.Speed = true ∧ ps.Speed.lt L.speedMax = true) := by
              simpa using hr
            simp [setName, hr1]
    · simp only [Bool.not_eq_true] at hact
      rw [hact]
      simp
  · rw [if_neg he]
    simp only [Bool.not_eq_true] at he
    exact visit_of_excluded lib L w a he

theorem registerRequest_ne_nil (id : String) (stats : List Stat) :
    registerRequest id stats ≠ [] := by
  intro h
  have hm := (ids_insert id (stats.map Stat.Id)).2.1
  rw [← map_Id_registerRequest, h] at hm
  simp at hm

/-- Registering a request changes no measured speed. -/
theorem measured_registerRequest (id id1 : String) (stats : List Stat) :
    measured (registerRequest id stats) id1 = measured stats id1 := by
  unfold measured
  rw [Find_registerRequest]
  rcases Find id1 stats with _ | s
  · by_cases e : id1 = id
    · have hz : (F64.ofInt 0).eq (F64.ofInt 0) = true := by decide
      simp [e, hz]
    · simp [e]
  · by_cases e : id1 = id <;> simp [e, UpdatePSCount]

/-- An iteration changes no measured speed. -/
theorem visit_measured (lib : Lib) (L : Locals) (w : World) (a : Nat) (id1 : String) :
    measured (visit lib L w a).1.ProxyStats id1 = measured w.ProxyStats id1 := by
  rw [visit_ProxyStats]
  split_ifs
  · exact measured_registerRequest _ _ _
  · rfl

/-- When the speed stage cannot change its activity, an iteration leaves it so and
leaves the activity as it is. -/
theorem visit_steady (lib : Lib) (L : Locals) (w : World) (a : Nat) (h : steadySpeed L w) :
    steadySpeed L (visit lib L w a).1 ∧
      speedActive L (visit lib L w a).1 = speedActive L w := by
  have hflag := visit_SpeedExist lib L w a
  have hstats := visit_ProxyStats lib L w a
  rcases h with h | h | h
  · have hne : (visit lib L w a).1.ProxyStats ≠ [] := by
      rw [hstats]
      split_ifs
      · exact registerRequest_ne_nil _ _
      · exact h
    refine ⟨Or.inl hne, ?_⟩
    unfold speedActive
    rw [hflag]
    have e1 : ((visit lib L w a).1.ProxyStats.length != 0) = true := by
      simpa using hne
    have e2 : (w.ProxyStats.length != 0) = true := by
      simpa using h
    rw [e1, e2]
  · refine ⟨Or.inr (Or.inl (by rw [hflag]; exact h)), ?_⟩
    simp [speedActive, hflag, h]
  · refine ⟨Or.inr (Or.inr h), ?_⟩
    simp [speedActive, h]

/-- Renaming a renamed name changes nothing. -/
theorem rename_idem (lib : Lib) (L : Locals) (active : Bool) (m : Option F64)
    (name : String) :
    rename lib L active m (rename lib L active m name) = rename lib L active m name := by
  unfold rename
  cases active
  · simp [stripSpeedTag_idem]
  · simp only [if_true]
    rcases m with _ | s
    · rfl
    · simp only
      by_cases hr : (L.speedMin.lt s && s.lt L.speedMax) = true
      · simp only [hr, if_true]
        congr 1
        have e : speedTag lib s = " |" ++ (lib.Sprintf52 s ++ "Mb") :=
          String.append_assoc _ _ _
        rw [e]
        exact stripSpeedTag_append _ _ (stripSpeedTag_no_sep name)
      · simp only [hr, if_false]
        exact stripSpeedTag_idem name

/-- The heap after an iteration. -/
theorem visit_heap (lib : Lib) (L : Locals) (w : World) (a : Nat) :
    (visit lib L w a).1.heap =
      if earlyStages L (w.heap a) = true then
        Function.update w.heap a
          { w.heap a with
            Name := rename lib L (speedActive L w)
              (measured w.ProxyStats (w.heap a).Identifier) (w.heap a).Name }
      else w.heap := by
  rw [visit_eq]
  split_ifs <;> simp [updateStatistic, setName]

/-- The verdict of an iteration. -/
theorem visit_kept (lib : Lib) (L : Locals) (w : World) (a : Nat) :
    (visit lib L w a).2 =
      (earlyStages L (w.heap a) &&
        speedVerdict L (speedActive L w) (measured w.ProxyStats (w.heap a).Identifier)) := by
  rw [visit_eq]
  split_ifs with h1 h2 <;> simp_all

/-- A loop over a list without nil elements whose iterations keep a property of the
proxies visited so far and of the state returns in a state with that property. -/
theorem loop_preserves (lib : Lib) (L : Locals) (Inv : List Proxy → World → Prop)
    (l : List Proxy) (hnn : ∀ p ∈ l, p ≠ none)
    (hstep : ∀ (vis : List Proxy) (w : World) (a : Nat),
      Inv vis w → Inv (vis ++ [some a]) (visit lib L w a).1) :
    ∀ (vis : List Proxy) (w : World) (acc : ProxyList), Inv vis w →
      ∃ w1 r, loop lib L l w acc = some (w1, r) ∧ Inv (vis ++ l) w1 := by
  induction l with
  | nil => intro vis w acc h; exact ⟨w, acc, rfl, by simpa using h⟩
  | cons p rest ih =>
    intro vis w acc h
    rcases p with _ | a
    · exact absurd rfl (hnn none (by simp))
    · rw [loop_cons_some]
      obtain ⟨w1, r, h1, h2⟩ := ih (fun p hp => hnn p (by simp [hp])) (vis ++ [some a]) _ _
        (hstep vis w a h)
      exact ⟨w1, r, h1, by simpa using h2⟩

/-- A loop over a list without nil elements whose iterations keep a property of the
state and decide by a fixed verdict returns the entries that the verdict keeps. -/
theorem loop_filter (lib : Lib) (L : Locals) (K : Nat → Bool) (Inv : World → Prop)
    (l : List Proxy) (hnn : ∀ p ∈ l, p ≠ none)
    (hstep : ∀ (w : World) (a : Nat), some a ∈ l → Inv w →
      (visit lib L w a).2 = K a ∧ Inv (visit lib L w a).1) :
    ∀ (w : World) (acc : ProxyList), Inv w →
      ∃ w1, loop lib L l w acc = some (w1, acc ++ l.filter (keptBy K)) ∧ Inv w1 := by
  induction l with
  | nil => intro w acc h; exact ⟨w, by simp [loop], h⟩
  | cons p rest ih =>
    intro w acc h
    rcases p with _ | a
    · exact absurd rfl (hnn none (by simp))
    · rw [loop_cons_some]
      obtain ⟨hk, hinv⟩ := hstep w a (by simp) h
      obtain ⟨w1, h1, h2⟩ := ih (fun p hp => hnn p (by simp [hp]))
        (fun w2 a2 ha2 => hstep w2 a2 (by simp [ha2])) (visit lib L w a).1
        (if (visit lib L w a).2 then acc ++ [some a] else acc) hinv
      refine ⟨w1, ?_, h2⟩
      rw [h1, hk]
      cases hK : K a <;> simp [List.filter_cons, keptBy, hK]

theorem afterVisit_Identifier (lib : Lib) (L : Locals) (w : World) (a : Nat) :
    (afterVisit lib L w a).Identifier = (w.heap a).Identifier := by
  unfold afterVisit
  split_ifs <;> rfl

/-- The first iteration leaves an object that a further renaming does not change. -/
theorem afterVisit_rename (lib : Lib) (L : Locals) (w : World) (a : Nat) :
    ({ afterVisit lib L w a with
        Name := rename lib L (speedActive L w) (measured w.ProxyStats (w.heap a).Identifier)
          (afterVisit lib L w a).Name } : ProxyObj) = afterVisit lib L w a ∨
      earlyStages L (w.heap a) = false := by
  by_cases he : earlyStages L (w.heap a) = true
  · left
    unfold afterVisit
    simp only [he, if_true]
    rw [rename_idem]
  · right
    simpa using he

/-- The object of the visited proxy after an iteration, in a state reached in a run. -/
theorem runInv_visit_heap (lib : Lib) (L : Locals) (w0 : World) (vis : List Proxy)
    (w : World) (a : Nat) (h : runInv lib L w0 vis w) :
    (visit lib L w a).1.heap a = afterVisit lib L w0 a := by
  obtain ⟨_, hact, hm, hcell, _⟩ := h
  rw [visit_heap, hact]
  have hcases : w.heap a = w0.heap a ∨
      (earlyStages L (w0.heap a) = true ∧ w.heap a = afterVisit lib L w0 a) := by
    rcases hcell a with h1 | h1
    · exact Or.inl h1
    · by_cases he : earlyStages L (w0.heap a) = true
      · exact Or.inr ⟨he, h1⟩
      · left
        rw [h1]
        unfold afterVisit
        rw [if_neg he]
  rcases hcases with h1 | ⟨he0, h1⟩
  · by_cases he : earlyStages L (w.heap a) = true
    · rw [if_pos he, Function.update_same, hm, h1]
      rw [h1] at he
      unfold afterVisit
      rw [if_pos he]
    · rw [if_neg he, h1]
      rw [h1] at he
      unfold afterVisit
      rw [if_neg he]
  · by_cases he : earlyStages L (w.heap a) = true
    · rw [if_pos he, Function.update_same, hm, h1, afterVisit_Identifier]
      rcases afterVisit_rename lib L w0 a with h2 | h2
      · exact h2
      · rw [he0] at h2; simp at h2
    · rw [if_neg he, h1]

/-- An iteration keeps the property of the states reached in a run. -/
theorem runInv_step (lib : Lib) (L : Locals) (w0 : World) (vis : List Proxy) (w : World)
    (a : Nat) (h : runInv lib L w0 vis w) :
    runInv lib L w0 (vis ++ [some a]) (visit lib L w a).1 := by
  have hself := runInv_visit_heap lib L w0 vis w a h
  obtain ⟨hst, hact, hm, hcell, hvis⟩ := h
  obtain ⟨s1, s2⟩ := visit_steady lib L w a hst
  refine ⟨s1, by rw [s2, hact], fun id => by rw [visit_measured, hm], fun a1 => ?_,
    fun a1 ha1 => ?_⟩
  · by_cases e : a1 = a
    · subst e; exact Or.inr hself
    · rw [visit_heap_other lib L w a a1 e]; exact hcell a1
  · by_cases e : a1 = a
    · subst e; exact hself
    · rw [visit_heap_other lib L w a a1 e]
      rcases List.mem_append.1 ha1 with hm1 | hm1
      · exact hvis a1 hm1
      · simp at hm1; exact absurd hm1 e

/-- The verdict of an iteration in a state reached in a run, for a proxy on which the
earlier stages decide in the same way after its first iteration as before. -/
theorem runInv_verdict (lib : Lib) (L : Locals) (w0 : World) (vis : List Proxy) (w : World)
    (a : Nat) (h : runInv lib L w0 vis w)
    (hearly : earlyStages L (afterVisit lib L w0 a) = earlyStages L (w0.heap a)) :
    (visit lib L w a).2 = verdict L w0 a := by
  obtain ⟨_, hact, hm, hcell, _⟩ := h
  rw [visit_kept, hact, hm]
  unfold verdict
  rcases hcell a with h1 | h1
  · rw [h1]
  · rw [h1, hearly, afterVisit_Identifier]

theorem runInv_weaken (lib : Lib) (L : Locals) (w0 : World) (vis : List Proxy) (w : World)
    (h : runInv lib L w0 vis w) : runInv lib L w0 [] w :=
  ⟨h.1, h.2.1, h.2.2.1, h.2.2.2.1, fun a ha => by simp at ha⟩

theorem runInv_start (lib : Lib) (L : Locals) (w0 : World) (h : steadySpeed L w0) :
    runInv lib L w0 [] w0 :=
  ⟨h, rfl, fun _ => rfl, fun _ => Or.inl rfl, fun a ha => by simp at ha⟩

/-- An iteration of the second run, for a proxy that the first run has visited and on
which the earlier stages decide in the same way after its first iteration as before:
the verdict is the one of the first run and the state keeps its property. -/
theorem rerunInv_step (lib : Lib) (L : Locals) (w0 w1 : World) (w : World) (a : Nat)
    (hw1 : w1.heap a = afterVisit lib L w0 a)
    (hearly : earlyStages L (afterVisit lib L w0 a) = earlyStages L (w0.heap a))
    (h : rerunInv L w0 w1 w) :
    (visit lib L w a).2 = verdict L w0 a ∧ rerunInv L w0 w1 (visit lib L w a).1 := by
  obtain ⟨hst, hact, hm, hheap⟩ := h
  obtain ⟨s1, s2⟩ := visit_steady lib L w a hst
  have hcell : w.heap a = afterVisit lib L w0 a := by rw [hheap, hw1]
  refine ⟨?_, s1, by rw [s2, hact], fun id => by rw [visit_measured, hm], ?_⟩
  · rw [visit_kept, hact, hm, hcell, hearly, afterVisit_Identifier]
    rfl
  · rw [visit_heap, ← hheap]
    by_cases he : earlyStages L (w.heap a) = true
    · rw [if_pos he, hact, hm, hcell, afterVisit_Identifier]
      rcases afterVisit_rename lib L w0 a with h2 | h2
      · rw [h2, ← hcell]
        exact Function.update_eq_self a w.heap
      · rw [hcell, hearly, h2] at he; simp at he
    · rw [if_neg he]

/-- A run from a state in which the speed stage cannot change its activity returns, in
a state with the property of the states reached in a run, every proxy of the list
visited. -/
theorem run_reaches (lib : Lib) (L : Locals) (w0 : World) (l : List Proxy)
    (hnn : ∀ p ∈ l, p ≠ none) (hsteady : steadySpeed L w0) :
    ∃ w1 r, loop lib L l w0 [] = some (w1, r) ∧ runInv lib L w0 l w1 := by
  obtain ⟨w1, r, h1, h2⟩ := loop_preserves lib L (runInv lib L w0) l hnn
    (fun vis w a h => runInv_step lib L w0 vis w a h) [] w0 [] (runInv_start lib L w0 hsteady)
  exact ⟨w1, r, h1, by simpa using h2⟩

/-- The result of a run whose proxies are decided in the same way by the earlier stages
after their first iteration as before: the entries that the verdict keeps. -/
theorem run_result (lib : Lib) (L : Locals) (w0 : World) (l : List Proxy)
    (hnn : ∀ p ∈ l, p ≠ none) (hsteady : steadySpeed L w0)
    (hearly : ∀ a, some a ∈ l →
      earlyStages L (afterVisit lib L w0 a) = earlyStages L (w0.heap a)) :
    ∃ w1, loop lib L l w0 [] = some (w1, l.filter (keptBy (verdict L w0))) := by
  obtain ⟨w1, h1, _⟩ := loop_filter lib L (verdict L w0) (runInv lib L w0 []) l hnn
    (fun w a ha h => ⟨runInv_verdict lib L w0 [] w a h (hearly a ha),
      runInv_weaken lib L w0 _ _ (runInv_step lib L w0 [] w a h)⟩)
    w0 [] (runInv_start lib L w0 hsteady)
  exact ⟨w1, by simpa using h1⟩

/-- A second run, over a list of proxies that the first run has visited and that are
decided in the same way by the earlier stages after their first iteration as before:
it returns the entries that the verdict of the first run keeps and writes no object. -/
theorem rerun_result (lib : Lib) (L : Locals) (w0 w1 : World) (vis l : List Proxy)
    (hnn : ∀ p ∈ l, p ≠ none) (hsub : ∀ p ∈ l, p ∈ vis) (hinv : runInv lib L w0 vis w1)
    (hearly : ∀ a, some a ∈ vis →
      earlyStages L (afterVisit lib L w0 a) = earlyStages L (w0.heap a)) :
    ∃ w2, loop lib L l w1 [] = some (w2, l.filter (keptBy (verdict L w0))) ∧
      w2.heap = w1.heap := by
  obtain ⟨w2, h1, h2⟩ := loop_filter lib L (verdict L w0) (rerunInv L w0 w1) l hnn
    (fun w a ha h => rerunInv_step lib L w0 w1 w a (hinv.2.2.2.2 a (hsub _ ha))
      (hearly a (hsub _ ha)) h)
    w1 [] ⟨hinv.1, hinv.2.1, hinv.2.2.1, rfl⟩
  exact ⟨w2, by simpa using h1, h2.2.2.2⟩

/-! ## C1: the result is a subsequence of the input -/

/-- C1: for a list that passes `checkErrorProxies`, whenever `preFilter` returns, the
list it leaves in `b.Proxies` is a subsequence of the input list (pointers compared,
each position used at most once, order kept); and it does return when no element of
the list is nil. -/
theorem preFilter_subsequence (lib : Lib) (b : Base) (w : World) (l : ProxyList)
    (hl : b.Proxies = some l) (hvalid : checkErrorProxies (some l) = true) :
    (∀ b1 w1, preFilter lib b w = some (b1, w1) →
        ∃ r, b1.Proxies = some r ∧ r.Sublist l) ∧
    ((∀ p ∈ l, p ≠ none) → ∃ b1 w1 r, preFilter lib b w = some (b1, w1) ∧
        b1.Proxies = some r ∧ r.Sublist l) := by
  have key : ∀ b1 w1, preFilter lib b w = some (b1, w1) →
      ∃ r, b1.Proxies = some r ∧ r.Sublist l := by
    intro b1 w1 h
    unfold preFilter at h
    rw [hl, hvalid] at h
    simp only [Bool.not_true, Bool.false_eq_true, if_false, Option.getD_some] at h
    rcases hloop : loop lib (locals lib b) l w [] with _ | ⟨w2, r⟩
    · rw [hloop] at h; simp at h
    · rw [hloop] at h
      simp only [Option.some.injEq, Prod.mk.injEq] at h
      obtain ⟨k, hk, hs⟩ := loop_sublist lib _ l w [] w2 r hloop
      refine ⟨r, ?_, ?_⟩
      · rw [← h.1]
      · simpa [hk] using hs
  refine ⟨key, fun hnn => ?_⟩
  have hsome := (loop_isSome_iff lib (locals lib b) l w []).2 hnn
  rcases hloop : loop lib (locals lib b) l w [] with _ | ⟨w2, r⟩
  · rw [hloop] at hsome; simp at hsome
  · have hpre : preFilter lib b w = some ({ b with Proxies := some r }, w2) := by
      unfold preFilter
      rw [hl, hvalid]
      simp [hloop]
    obtain ⟨r1, hr1, hs⟩ := key _ _ hpre
    exact ⟨_, _, r1, hpre, hr1, hs⟩

/-- The three-proxy example: the run returns and its result is a subsequence. -/
theorem preFilter_subsequence_witness :
    ∃ b1 w1 r, preFilter goLib relayQuery relayWorld = some (b1, w1) ∧
      b1.Proxies = some r ∧ r.Sublist [some 0, some 1, some 2] :=
  (preFilter_subsequence goLib relayQuery relayWorld [some 0, some 1, some 2] rfl
    (by decide)).2 (by decide)

/-! ## C2: the decision of the speed stage -/

/-- C2: for a proxy that has passed the earlier stages while the speed stage is active:
with a stat of nonzero speed `s` it is kept exactly when `speedMin < s` and
`s < speedMax` (so never when `s` is one of the bounds); with a stat of speed zero, or
without a stat, it is kept exactly when `speedMin == 0`. -/
theorem speed_stage_decision (lib : Lib) (L : Locals) (w : World) (a : Nat)
    (hearly : earlyStages L (w.heap a) = true) (hactive : speedActive L w = true) :
    (∀ ps, Find (w.heap a).Identifier w.ProxyStats = some ps →
        ps.Speed.eq (F64.ofInt 0) = false →
        (((visit lib L w a).2 = true ↔
            (L.speedMin.lt ps.Speed = true ∧ ps.Speed.lt L.speedMax = true)) ∧
          ((ps.Speed = L.speedMin ∨ ps.Speed = L.speedMax) → (visit lib L w a).2 = false))) ∧
    (∀ ps, Find (w.heap a).Identifier w.ProxyStats = some ps →
        ps.Speed.eq (F64.ofInt 0) = true →
        ((visit lib L w a).2 = true ↔ L.speedMin.eq (F64.ofInt 0) = true)) ∧
    (Find (w.heap a).Identifier w.ProxyStats = none →
        ((visit lib L w a).2 = true ↔ L.speedMin.eq (F64.ofInt 0) = true)) := by
  refine ⟨fun ps hf hs => ?_, fun ps hf hs => ?_, fun hf => ?_⟩
  · have hiff : (visit lib L w a).2 = true ↔
        (L.speedMin.lt ps.Speed = true ∧ ps.Speed.lt L.speedMax = true) := by
      unfold visit speedStage
      rw [hearly, hactive]
      simp only [if_true, hf, hs, Bool.not_false]
      by_cases hr : (L.speedMin.lt ps.Speed && ps.Speed.lt L.speedMax) = true
      · rw [if_pos hr]; simpa using hr
      · rw [if_neg hr]; simpa using hr
    refine ⟨hiff, fun hb => ?_⟩
    rcases hb with hb | hb
    · have : ¬ (visit lib L w a).2 = true := by
        rw [hiff, hb]; simp [F64.lt_irrefl]
      simpa using this
    · have : ¬ (visit lib L w a).2 = true := by
        rw [hiff, ← hb]; simp [F64.lt_irrefl]
      simpa using this
  · unfold visit speedStage
    rw [hearly, hactive]
    simp only [if_true, hf, hs, Bool.not_true]
    by_cases hm : L.speedMin.eq (F64.ofInt 0) = true
    · simp [hm]
    · simp [hm]
  · unfold visit speedStage
    rw [hearly, hactive]
    simp only [if_true, hf]
    by_cases hm : L.speedMin.eq (F64.ofInt 0) = true
    · simp [hm]
    · simp [hm]

/-- The stat of speed 12.3 lies in the range 5 to 20: the decision of the speed stage
on the single proxy. -/
theorem speed_stage_decision_witness :
    (visit goLib (locals goLib speedQuery5_20) speedWorld 0).2 = true ↔
      ((locals goLib speedQuery5_20).speedMin.lt speed12_3 = true ∧
        speed12_3.lt (locals goLib speedQuery5_20).speedMax = true) :=
  ((speed_stage_decision goLib (locals goLib speedQuery5_20) speedWorld 0 (by decide)
    (by decide)).1 { Speed := speed12_3, Delay := 0, ReqCount := 0, Id := "x" } (by decide)
    (by decide)).1

/-! ## C3: the custom-code stage -/

/-- C3: with all other stages inactive, a proxy is kept exactly when: the code is `r`
and its name contains `Relay`; `p` and `Pool`; `rp` and one of the two; `nr` and not
`Relay`; `np` and not `Pool`; `nrp` and neither; or the code is none of these six. The
query `rp` on the names NodeA-Relay, NodeB-Pool, NodeC-Plain keeps the first two. -/
theorem filter_code_decision (lib : Lib) (b : Base) (w : World) (a : Nat)
    (htypes : b.Types = "" ∨ b.Types = "all") (hcountry : b.Country = "" ∨ b.Country = "all")
    (hnot : b.NotCountry = "") (hs : b.StreamFilter = "") (hns : b.StreamNotFilter = "")
    (hspeed : speedActive (locals lib b) w = false) :
    ((visit lib (locals lib b) w a).2 = true ↔
        ((b.Filter = "r" ∧ Contains (w.heap a).Name "Relay" = true) ∨
         (b.Filter = "p" ∧ Contains (w.heap a).Name "Pool" = true) ∨
         (b.Filter = "rp" ∧ (Contains (w.heap a).Name "Relay" = true ∨
            Contains (w.heap a).Name "Pool" = true)) ∨
         (b.Filter = "nr" ∧ Contains (w.heap a).Name "Relay" = false) ∨
         (b.Filter = "np" ∧ Contains (w.heap a).Name "Pool" = false) ∨
         (b.Filter = "nrp" ∧ Contains (w.heap a).Name "Relay" = false ∧
            Contains (w.heap a).Name "Pool" = false) ∨
         (b.Filter ≠ "r" ∧ b.Filter ≠ "p" ∧ b.Filter ≠ "rp" ∧ b.Filter ≠ "nr" ∧
            b.Filter ≠ "np" ∧ b.Filter ≠ "nrp"))) ∧
    (preFilter goLib relayQuery relayWorld).map (fun r => r.1.Proxies)
      = some (some [some 0, some 1]) := by
  refine ⟨?_, by decide⟩
  rw [visit_kept_of_inactive lib _ w a hspeed]
  have hearly : earlyStages (locals lib b) (w.heap a)
      = !filterCodeExcludes b.Filter (w.heap a).Name := by
    rw [← filterStage_locals lib]
    unfold earlyStages typeStage streamStage streamNotStage notCountryStage countryStage
    rcases htypes with h1 | h1 <;> rcases hcountry with h2 | h2 <;>
      simp [locals, h1, h2, hnot, hs, hns]
  rw [hearly]
  unfold filterCodeExcludes
  by_cases c1 : b.Filter = "r"
  · simp [c1]
  by_cases c2 : b.Filter = "p"
  · simp [c2]
  by_cases c3 : b.Filter = "rp"
  · simp [c3]; tauto
  by_cases c4 : b.Filter = "nr"
  · simp [c4]
  by_cases c5 : b.Filter = "np"
  · simp [c5]
  by_cases c6 : b.Filter = "nrp"
  · simp [c6]; tauto
  simp [c1, c2, c3, c4, c5, c6]

/-- The code `rp` on the proxy named NodeC-Plain: it is not kept. -/
theorem filter_code_decision_witness :
    (visit goLib (locals goLib relayQuery) relayWorld 2).2 = false := by
  have h := (filter_code_decision goLib relayQuery relayWorld 2 (by decide) (by decide)
    (by decide) (by decide) (by decide) (by decide)).1
  by_contra hc
  have hk : (visit goLib (locals goLib relayQuery) relayWorld 2).2 = true := by simpa using hc
  have hd := h.1 hk
  revert hd
  decide

/-! ## C4: the type and country gates -/

/-- C4: with the stream lists and the filter code empty and the speed stage inactive,
a proxy is kept exactly when (1) Types is empty or `all` or its type tag is one of
the comma-separated entries of Types, (2) NotCountry is empty or its name contains none
of the entries of NotCountry, and (3) Country is empty or `all` or its name contains
one of the entries of Country. -/
theorem type_country_gates (lib : Lib) (b : Base) (w : World) (a : Nat)
    (hs : b.StreamFilter = "") (hns : b.StreamNotFilter = "") (hf : b.Filter = "")
    (hspeed : speedActive (locals lib b) w = false) :
    (visit lib (locals lib b) w a).2 = true ↔
      ((b.Types = "" ∨ b.Types = "all" ∨ ∃ t ∈ Split b.Types ",", (w.heap a).TypeName = t) ∧
       (b.NotCountry = "" ∨
          ∀ c ∈ Split b.NotCountry ",", Contains (w.heap a).Name c = false) ∧
       (b.Country = "" ∨ b.Country = "all" ∨
          ∃ c ∈ Split b.Country ",", Contains (w.heap a).Name c = true)) := by
  rw [visit_kept_of_inactive lib _ w a hspeed]
  unfold earlyStages
  rw [streamStage_off lib b _ hs, streamNotStage_off lib b _ hns, filterStage_off lib b _ hf]
  simp only [Bool.and_true, Bool.and_eq_true]
  rw [typeStage_locals, notCountryStage_locals, countryStage_locals, and_assoc]

/-- The gates on the proxy named NodeB-Pool of type ss with the type list `ss,vmess`
and the deny-list `Pool`. -/
theorem type_country_gates_witness :
    (visit goLib (locals goLib typeQuery) relayWorld 1).2 = true ↔
      ((typeQuery.Types = "" ∨ typeQuery.Types = "all" ∨
          ∃ t ∈ Split typeQuery.Types ",", (relayWorld.heap 1).TypeName = t) ∧
       (typeQuery.NotCountry = "" ∨
          ∀ c ∈ Split typeQuery.NotCountry ",", Contains (relayWorld.heap 1).Name c = false) ∧
       (typeQuery.Country = "" ∨ typeQuery.Country = "all" ∨
          ∃ c ∈ Split typeQuery.Country ",", Contains (relayWorld.heap 1).Name c = true)) :=
  type_country_gates goLib typeQuery relayWorld 1 (by decide) (by decide) (by decide)
    (by decide)

/-! ## C5: the stream allow stage on a tag that names no service -/

/-- C5: evaluation on the stream allow-list `hulu`. The tag sets no pattern, the empty
pattern is compiled and matches every name, so all three proxies are kept, among them
NodeC-Plain, whose name matches neither the disney nor the netflix pattern. -/
theorem stream_unknown_tag_keeps_all :
    (preFilter goLib huluQuery relayWorld).map (fun r => r.1.Proxies)
        = some (some [some 0, some 1, some 2]) ∧
      streamStage (locals goLib huluQuery) (relayWorld.heap 2) = true ∧
      MatchString disneyPattern (relayWorld.heap 2).Name = false ∧
      MatchString netflixPattern (relayWorld.heap 2).Name = false := by
  decide

/-! ## C6: the short-circuit on a malformed list -/

/-- C6: `checkErrorProxies` is false exactly for the nil list, the empty list and a
list whose first element is nil; on these `preFilter` returns with `b.Proxies` set to
the empty list and the state (registry and every display name) unchanged. -/
theorem preFilter_malformed (lib : Lib) (b : Base) (w : World) :
    (checkErrorProxies b.Proxies = false ↔
      (b.Proxies = none ∨ b.Proxies = some [] ∨ ∃ t, b.Proxies = some (none :: t))) ∧
    ((b.Proxies = none ∨ b.Proxies = some [] ∨ ∃ t, b.Proxies = some (none :: t)) →
      preFilter lib b w = some ({ b with Proxies := some [] }, w)) := by
  have hiff : checkErrorProxies b.Proxies = false ↔
      (b.Proxies = none ∨ b.Proxies = some [] ∨ ∃ t, b.Proxies = some (none :: t)) := by
    rcases hP : b.Proxies with _ | l
    · simp [checkErrorProxies]
    · rcases l with _ | ⟨p, t⟩
      · simp [checkErrorProxies]
      · cases p <;> simp [checkErrorProxies]
  refine ⟨hiff, fun h => ?_⟩
  unfold preFilter
  rw [hiff.2 h]
  simp

/-- A list whose first element is nil: the result is the empty list and the state is
the one before the call. -/
theorem preFilter_malformed_witness :
    preFilter goLib nilFirstQuery speedWorld
      = some ({ nilFirstQuery with Proxies := some [] }, speedWorld) :=
  (preFilter_malformed goLib nilFirstQuery speedWorld).2 (Or.inr (Or.inr ⟨[some 0], rfl⟩))

/-! ## C7: the request counts -/

/-- C7: on a list without nil elements `preFilter` returns, and then: the request count
of every identity is its count before (0 without a stat) plus the number of entries of
the result with that identity; a stat that did not exist before has zero delay and
speed; the delay and the speed of a stat that existed are unchanged; an identity with no
entry in the result has the same stat, or the same absence of a stat, as before; and a
request registered for an identity without a stat appends a stat with count 1 and zero
delay and speed. -/
theorem request_count_effect (lib : Lib) (b : Base) (w : World) (l : ProxyList)
    (hl : b.Proxies = some l) (hvalid : checkErrorProxies (some l) = true)
    (hnn : ∀ p ∈ l, p ≠ none) :
    ∃ b1 w1 r, preFilter lib b w = some (b1, w1) ∧ b1.Proxies = some r ∧
      (∀ id, reqCount w1.ProxyStats id = reqCount w.ProxyStats id + countIdentity w.heap id r) ∧
      (∀ id s1, Find id w.ProxyStats = none → Find id w1.ProxyStats = some s1 →
        s1.Delay = 0 ∧ s1.Speed = F64.ofInt 0) ∧
      (∀ id s, Find id w.ProxyStats = some s →
        ∃ s1, Find id w1.ProxyStats = some s1 ∧ s1.Delay = s.Delay ∧ s1.Speed = s.Speed) ∧
      (∀ id, countIdentity w.heap id r = 0 → Find id w1.ProxyStats = Find id w.ProxyStats) ∧
      (∀ id stats, Find id stats = none →
        registerRequest id stats =
          stats ++ [{ Speed := F64.ofInt 0, Delay := 0, ReqCount := 1, Id := id }]) := by
  have hsome := (loop_isSome_iff lib (locals lib b) l w []).2 hnn
  rcases hloop : loop lib (locals lib b) l w [] with _ | ⟨w1, r⟩
  · rw [hloop] at hsome; simp at hsome
  have hpre : preFilter lib b w = some ({ b with Proxies := some r }, w1) := by
    unfold preFilter
    rw [hl, hvalid]
    simp [hloop]
  obtain ⟨k, hk, _, hst⟩ := loop_registry lib _ l w [] w1 r hloop
  simp only [List.nil_append] at hk
  subst hk
  have hfind := fun id => Find_registerAll (identities w.heap r) w.ProxyStats id
  refine ⟨_, w1, r, hpre, rfl, ?_, ?_, ?_, ?_, ?_⟩
  · intro id
    unfold reqCount countIdentity
    rw [hst, hfind]
    rcases h : Find id w.ProxyStats with _ | s
    · by_cases hc : (identities w.heap r).count id = 0
      · simp [hc]
      · simp [hc]
    · simp
  · intro id s1 hnone h1
    rw [hst, hfind, hnone] at h1
    by_cases hc : (identities w.heap r).count id = 0
    · simp [hc] at h1
    · simp only [hc, if_false, Option.some.injEq] at h1
      rw [← h1]
      exact ⟨rfl, rfl⟩
  · intro id s hs
    rw [hst, hfind, hs]
    exact ⟨_, rfl, rfl, rfl⟩
  · intro id hc
    unfold countIdentity at hc
    rw [hst, hfind, hc]
    rcases h : Find id w.ProxyStats with _ | s <;> simp
  · intro id stats hnone
    unfold registerRequest
    rw [hnone]

/-- Two selected proxies share the identity y, whose stat had count 7: the count is 9
afterwards. -/
theorem request_count_effect_witness :
    ∃ b1 w1 r, preFilter goLib countQuery countWorld = some (b1, w1) ∧
      b1.Proxies = some r ∧
      reqCount w1.ProxyStats "y" = 7 + countIdentity countWorld.heap "y" r := by
  obtain ⟨b1, w1, r, h1, h2, h3, _⟩ :=
    request_count_effect goLib countQuery countWorld [some 0, some 1, some 2] rfl
      (by decide) (by decide)
  exact ⟨b1, w1, r, h1, h2, h3 "y"⟩

/-! ## C8: an empty speed minimum -/

/-- C8, as stated, fails: on the empty speed range and on the range `,10` (empty
minimum) `needFilterSpeed` stays true (for the empty range whatever the library does),
the minimum is 0 and not the value -1 that switches the stage off, and with the registry
non-empty and the speed flag set the single proxy, which passes all other stages, is
excluded: its stat has speed 2000 (range 0 to 1000), respectively 12.3 (range 0 to 10). -/
theorem empty_speed_min_still_filters :
    (∀ lib : Lib, (locals lib noSpeedQuery).needFilterSpeed = true) ∧
    checkSpeed goLib (Split noSpeedQuery.Speed ",") = (F64.ofInt 0, F64.ofInt 1000) ∧
    earlyStages (locals goLib noSpeedQuery) (fastWorld.heap 0) = true ∧
    (preFilter goLib noSpeedQuery fastWorld).map (fun r => r.1.Proxies) = some (some []) ∧
    (locals goLib emptyMinQuery).needFilterSpeed = true ∧
    checkSpeed goLib (Split emptyMinQuery.Speed ",") = (F64.ofInt 0, F64.ofInt 10) ∧
    earlyStages (locals goLib emptyMinQuery) (speedWorld.heap 0) = true ∧
    (preFilter goLib emptyMinQuery speedWorld).map (fun r => r.1.Proxies) = some (some []) := by
  refine ⟨?_, by decide, by decide, by decide, by decide, by decide, by decide, by decide⟩
  intro lib
  have hsplit : Split noSpeedQuery.Speed "," = [""] := by decide
  have hmin : (checkSpeed lib [""]).1 = F64.ofInt 0 := by
    simp [checkSpeed, F64.IsNaN_ofInt]
  show (if (checkSpeed lib (Split noSpeedQuery.Speed ",")).1.eq (F64.ofInt (-1)) then false
    else if noSpeedQuery.Speed = "" then true else true) = true
  rw [hsplit, hmin]
  decide

/-- C8, amended: for a speed range with an empty minimum (a comma followed by anything)
the minimum falls back to 0 and `needFilterSpeed` stays true; the flag is cleared only
by a minimum equal to -1. The stage is then active as soon as the registry is not empty
and the speed flag is set, and a proxy that has passed the other stages is kept exactly
when 0 < s < max if its stat has a nonzero speed s, and always if it has no stat or a
stat of speed zero. -/
theorem empty_min_component (lib : Lib) (b : Base) (w : World) (a : Nat) (t : List Char)
    (hspeed : b.Speed.data = ',' :: t) (hparse : (lib.ParseFloat "").2 = true) :
    (locals lib b).speedMin = F64.ofInt 0 ∧
    (locals lib b).needFilterSpeed = true ∧
    (∀ b2 : Base, (locals lib b2).needFilterSpeed = false ↔
      (locals lib b2).speedMin.eq (F64.ofInt (-1)) = true) ∧
    speedActive (locals lib b) w = (w.ProxyStats.length != 0 && w.SpeedExist) ∧
    (earlyStages (locals lib b) (w.heap a) = true →
      speedActive (locals lib b) w = true →
      (∀ ps, Find (w.heap a).Identifier w.ProxyStats = some ps →
        ps.Speed.eq (F64.ofInt 0) = false →
        ((visit lib (locals lib b) w a).2 = true ↔
          ((F64.ofInt 0).lt ps.Speed = true ∧ ps.Speed.lt (locals lib b).speedMax = true))) ∧
      ((Find (w.heap a).Identifier w.ProxyStats = none ∨
          ∃ ps, Find (w.heap a).Identifier w.ProxyStats = some ps ∧
            ps.Speed.eq (F64.ofInt 0) = true) →
        (visit lib (locals lib b) w a).2 = true)) := by
  obtain ⟨rest, hrest⟩ := Split_comma b.Speed t hspeed
  have hmin : (locals lib b).speedMin = F64.ofInt 0 := by
    show (checkSpeed lib (Split b.Speed ",")).1 = F64.ofInt 0
    rw [hrest]
    exact checkSpeed_empty_min lib rest hparse
  have hflag : ∀ b2 : Base, (locals lib b2).needFilterSpeed =
      !(locals lib b2).speedMin.eq (F64.ofInt (-1)) := by
    intro b2
    show (if (checkSpeed lib (Split b2.Speed ",")).1.eq (F64.ofInt (-1)) then false
      else if b2.Speed = "" then true else true) = !(checkSpeed lib (Split b2.Speed ",")).1.eq
        (F64.ofInt (-1))
    cases (checkSpeed lib (Split b2.Speed ",")).1.eq (F64.ofInt (-1)) <;> simp
  have hneed : (locals lib b).needFilterSpeed = true := by
    rw [hflag, hmin]
    decide
  refine ⟨hmin, hneed, fun b2 => ?_, ?_, fun hearly hactive => ⟨fun ps hf hs => ?_, fun hu => ?_⟩⟩
  · rw [hflag]
    cases (locals lib b2).speedMin.eq (F64.ofInt (-1)) <;> simp
  · unfold speedActive
    rw [hneed]
    simp
  · rw [visit_kept_of_active lib _ w a hearly hactive, hf]
    simp [hs, hmin]
  · rw [visit_kept_of_active lib _ w a hearly hactive]
    have hz : (F64.ofInt 0).eq (F64.ofInt 0) = true := by decide
    rcases hu with hu | ⟨ps, hf, hs⟩
    · rw [hu]
      simp [hmin, hz]
    · rw [hf]
      simp [hs, hmin, hz]

/-- The range `,10` with a stat of speed 12.3: the minimum is 0, the stage is active and
the proxy is kept exactly when 0 < 12.3 < 10. -/
theorem empty_min_component_witness :
    (locals goLib emptyMinQuery).speedMin = F64.ofInt 0 ∧
      ((visit goLib (locals goLib emptyMinQuery) speedWorld 0).2 = true ↔
        ((F64.ofInt 0).lt speed12_3 = true ∧
          speed12_3.lt (locals goLib emptyMinQuery).speedMax = true)) :=
  have h := empty_min_component goLib emptyMinQuery speedWorld 0 "10".data rfl (by decide)
  ⟨h.1, (h.2.2.2.2 (by decide) (by decide)).1
    { Speed := speed12_3, Delay := 0, ReqCount := 0, Id := "x" } (by decide) (by decide)⟩

/-! ## C9: the parsing of the speed range -/

/-- C9: `checkSpeed` returns (0, 1000) on a list that has neither one nor two elements;
on one element it returns (0, 1000) when the element is empty, does not parse or parses
to NaN, and (v, 1000) when it parses to a value v that is not NaN; on two elements the
minimum is the value of the first or 0 on an error or NaN, the maximum the value of the
second or 1000 on an error or NaN. No bound it returns is NaN. -/
theorem checkSpeed_parsing (lib : Lib) (speed : List String) :
    (speed.length ≠ 1 → speed.length ≠ 2 →
      checkSpeed lib speed = (F64.ofInt 0, F64.ofInt 1000)) ∧
    (∀ s0, speed = [s0] →
      (s0 = "" → checkSpeed lib speed = (F64.ofInt 0, F64.ofInt 1000)) ∧
      (s0 ≠ "" → (lib.ParseFloat s0).2 = false → (lib.ParseFloat s0).1.IsNaN = false →
        checkSpeed lib speed = ((lib.ParseFloat s0).1, F64.ofInt 1000)) ∧
      (s0 ≠ "" → ((lib.ParseFloat s0).2 = true ∨ (lib.ParseFloat s0).1.IsNaN = true) →
        checkSpeed lib speed = (F64.ofInt 0, F64.ofInt 1000))) ∧
    (∀ s0 s1, speed = [s0, s1] →
      (checkSpeed lib speed).1 =
        (if (lib.ParseFloat s0).2 = true ∨ (lib.ParseFloat s0).1.IsNaN = true
          then F64.ofInt 0 else (lib.ParseFloat s0).1) ∧
      (checkSpeed lib speed).2 =
        (if (lib.ParseFloat s1).2 = true ∨ (lib.ParseFloat s1).1.IsNaN = true
          then F64.ofInt 1000 else (lib.ParseFloat s1).1)) ∧
    (checkSpeed lib speed).1.IsNaN = false ∧ (checkSpeed lib speed).2.IsNaN = false := by
  refine ⟨?_, ?_, ?_, ?_, ?_⟩
  · intro h1 h2
    rcases speed with _ | ⟨s0, _ | ⟨s1, _ | ⟨s2, t⟩⟩⟩
    · simp [checkSpeed, F64.IsNaN_ofInt]
    · simp at h1
    · simp at h2
    · simp [checkSpeed, F64.IsNaN_ofInt]
  · intro s0 hs
    subst hs
    refine ⟨?_, ?_, ?_⟩
    · intro he
      simp [checkSpeed, he, F64.IsNaN_ofInt]
    · intro he hp hn
      simp [checkSpeed, he, hp, hn, F64.IsNaN_ofInt]
    · intro he hp
      rcases hp with hp | hp <;> simp [checkSpeed, he, hp, F64.IsNaN_ofInt]
  · intro s0 s1 hs
    subst hs
    constructor
    · by_cases h : (lib.ParseFloat s0).2 = true ∨ (lib.ParseFloat s0).1.IsNaN = true
      · rw [if_pos h]
        rcases h with h | h <;> simp [checkSpeed, h]
      · rw [if_neg h]
        simp only [not_or, Bool.not_eq_true] at h
        simp [checkSpeed, h.1, h.2]
    · by_cases h : (lib.ParseFloat s1).2 = true ∨ (lib.ParseFloat s1).1.IsNaN = true
      · rw [if_pos h]
        rcases h with h | h <;> simp [checkSpeed, h]
      · rw [if_neg h]
        simp only [not_or, Bool.not_eq_true] at h
        simp [checkSpeed, h.1, h.2]
  · unfold checkSpeed
    simp only
    split_ifs with h
    · rfl
    · simp only [Bool.or_eq_true, not_or, Bool.not_eq_true] at h
      exact h.1
  · unfold checkSpeed
    simp only
    split_ifs with h
    · rfl
    · simp only [Bool.or_eq_true, not_or, Bool.not_eq_true] at h
      exact h.1

/-- The range `5,20`: both components parse, the bounds are 5 and 20. -/
theorem checkSpeed_parsing_witness :
    checkSpeed goLib ["5", "20"] = (F64.ofInt 5, F64.ofInt 20) := by
  have h := (checkSpeed_parsing goLib ["5", "20"]).2.2.1 "5" "20" rfl
  have h1 : (checkSpeed goLib ["5", "20"]).1 = F64.ofInt 5 := by
    rw [h.1]; decide
  have h2 : (checkSpeed goLib ["5", "20"]).2 = F64.ofInt 20 := by
    rw [h.2]; decide
  exact Prod.ext h1 h2

/-! ## C10: the names left by the active speed stage -/

/-- C10, as stated, fails: the speed stage is active (range `0,20`, registry not empty,
flag set) and the proxy, which has no stat and whose name carries an old annotation,
is kept with its name as it was, not with the text before the first `" |"`. -/
theorem stale_tag_kept_without_stat :
    speedActive (locals goLib speedQuery0_20) staleWorld = true ∧
    earlyStages (locals goLib speedQuery0_20) (staleWorld.heap 0) = true ∧
    Find (staleWorld.heap 0).Identifier staleWorld.ProxyStats = none ∧
    (preFilter goLib speedQuery0_20 staleWorld).map (fun r => (r.1.Proxies, (r.2.heap 0).Name))
      = some (some [some 0], "X |9.99Mb") ∧
    stripSpeedTag (staleWorld.heap 0).Name = "X" ∧
    ((visit goLib (locals goLib speedQuery0_20) staleWorld 0).1.heap 0).Name
      ≠ stripSpeedTag (staleWorld.heap 0).Name := by
  decide

/-- C10, amended: when the speed stage is active and the proxy has passed the earlier
stages, a proxy whose stat has a nonzero speed gets its name rebuilt from the base name
(the text before the first `" |"`): base name, `" |"`, the speed formatted with `%5.2f`
and `Mb` when the speed is in the range (kept), the base name alone when it is not
(excluded); a proxy without a stat or with a stat of speed zero keeps the name it had,
kept or excluded. Speed 12.3 with the range `5,20` gives `X |12.30Mb`; the range `15,20`
afterwards excludes the proxy and leaves the name `X`. -/
theorem speed_stage_names (lib : Lib) (L : Locals) (w : World) (a : Nat)
    (hearly : earlyStages L (w.heap a) = true) (hactive : speedActive L w = true) :
    (∀ ps, Find (w.heap a).Identifier w.ProxyStats = some ps →
      ps.Speed.eq (F64.ofInt 0) = false →
      ((L.speedMin.lt ps.Speed = true ∧ ps.Speed.lt L.speedMax = true) →
        (visit lib L w a).2 = true ∧
        ((visit lib L w a).1.heap a).Name =
          stripSpeedTag (w.heap a).Name ++ (" |" ++ lib.Sprintf52 ps.Speed ++ "Mb")) ∧
      (¬ (L.speedMin.lt ps.Speed = true ∧ ps.Speed.lt L.speedMax = true) →
        (visit lib L w a).2 = false ∧
        ((visit lib L w a).1.heap a).Name = stripSpeedTag (w.heap a).Name)) ∧
    ((Find (w.heap a).Identifier w.ProxyStats = none ∨
        ∃ ps, Find (w.heap a).Identifier w.ProxyStats = some ps ∧
          ps.Speed.eq (F64.ofInt 0) = true) →
      ((visit lib L w a).1.heap a).Name = (w.heap a).Name) ∧
    ((Contains (w.heap a).Name " |" = false → stripSpeedTag (w.heap a).Name = (w.heap a).Name) ∧
      (∀ pre post : List Char, (w.heap a).Name.data = pre ++ " |".data ++ post →
        (∀ p2 q2 : List Char, (w.heap a).Name.data = p2 ++ " |".data ++ q2 →
          pre.length ≤ p2.length) →
        stripSpeedTag (w.heap a).Name = String.mk pre)) ∧
    (preFilter goLib speedQuery5_20 speedWorld).bind (fun r =>
        (preFilter goLib speedQuery15_20 r.2).map fun r2 =>
          (r.1.Proxies, (r.2.heap 0).Name, r2.1.Proxies, (r2.2.heap 0).Name))
      = some (some [some 0], "X |12.30Mb", some [], "X") := by
  refine ⟨fun ps hf hs => ⟨fun hr => ?_, fun hr => ?_⟩, fun hu => ?_,
    stripSpeedTag_spec _, by decide⟩
  · have hr1 : (L.speedMin.lt ps.Speed && ps.Speed.lt L.speedMax) = true := by
      simp [hr.1, hr.2]
    unfold visit speedStage
    rw [hearly, hactive]
    simp only [if_true, hf, hs, Bool.not_false, hr1]
    simp [updateStatistic, AddToName, setName_Name, speedTag]
  · have hr1 : ¬ (L.speedMin.lt ps.Speed && ps.Speed.lt L.speedMax) = true := by
      simpa using hr
    unfold visit speedStage
    rw [hearly, hactive]
    simp only [if_true, hf, hs, Bool.not_false, if_neg hr1]
    simp [setName_Name]
  · unfold visit speedStage
    rw [hearly, hactive]
    rcases hu with hu | ⟨ps, hf, hs⟩
    · simp only [if_true, hu]
      split_ifs <;> simp [updateStatistic]
    · simp only [if_true, hf, hs, Bool.not_true, Bool.false_eq_true, if_false]
      split_ifs <;> simp [updateStatistic]

/-- The stat of speed 12.3 with the range `5,20`: the proxy is kept and its name is the
base name followed by the annotation of 12.3. -/
theorem speed_stage_names_witness :
    (visit goLib (locals goLib speedQuery5_20) speedWorld 0).2 = true ∧
      ((visit goLib (locals goLib speedQuery5_20) speedWorld 0).1.heap 0).Name =
        stripSpeedTag (speedWorld.heap 0).Name ++ (" |" ++ goLib.Sprintf52 speed12_3 ++ "Mb") :=
  ((speed_stage_names goLib (locals goLib speedQuery5_20) speedWorld 0 (by decide)
    (by decide)).1 { Speed := speed12_3, Delay := 0, ReqCount := 0, Id := "x" } (by decide)
    (by decide)).1 (by decide)

/-! ## C11: the inactive speed stage -/

/-- C11: when the speed flag is unset the speed stage is inactive for every speed range:
a proxy is kept exactly when it passes the other stages, and its name is then rewritten
to the text before the first `" |"` (unchanged without `" |"`); after `preFilter` every
proxy of the result has the rewrite of the name it had before the call. With the range
`5` and no speed ever recorded both proxies of the example are kept and the annotation
of the first is removed. -/
theorem inactive_speed_stage_cleanup (lib : Lib) (b : Base) (w : World) (l : ProxyList)
    (hl : b.Proxies = some l) (hvalid : checkErrorProxies (some l) = true)
    (hnn : ∀ p ∈ l, p ≠ none) (hflag : w.SpeedExist = false) :
    (∀ (w2 : World) (a : Nat), w2.SpeedExist = false →
      speedActive (locals lib b) w2 = false ∧
      (visit lib (locals lib b) w2 a).2 = earlyStages (locals lib b) (w2.heap a) ∧
      (earlyStages (locals lib b) (w2.heap a) = true →
        ((visit lib (locals lib b) w2 a).1.heap a).Name = stripSpeedTag (w2.heap a).Name)) ∧
    (∃ b1 w1 r, preFilter lib b w = some (b1, w1) ∧ b1.Proxies = some r ∧
      ∀ a, some a ∈ r → (w1.heap a).Name = stripSpeedTag (w.heap a).Name) ∧
    (∀ n : String, (Contains n " |" = false → stripSpeedTag n = n) ∧
      (∀ pre post : List Char, n.data = pre ++ " |".data ++ post →
        (∀ p2 q2 : List Char, n.data = p2 ++ " |".data ++ q2 → pre.length ≤ p2.length) →
        stripSpeedTag n = String.mk pre)) ∧
    (preFilter goLib speedQuery5 cleanupWorld).map
        (fun r => (r.1.Proxies, (r.2.heap 0).Name, (r.2.heap 1).Name))
      = some (some [some 0, some 1], "NodeA", "NodeB") := by
  refine ⟨fun w2 a hf => ?_, ?_, stripSpeedTag_spec, by decide⟩
  · have hin := speedActive_of_flag_unset (locals lib b) w2 hf
    refine ⟨hin, visit_kept_of_inactive lib _ w2 a hin, fun he => ?_⟩
    rw [visit_of_inactive lib _ w2 a hin, if_pos he]
    simp [updateStatistic, setName_Name]
  · obtain ⟨w1, r, hloop, hpre⟩ := preFilter_returns lib b w l hl hvalid hnn
    refine ⟨_, w1, r, hpre, rfl, ?_⟩
    exact (loop_cleanup_names lib (locals lib b) (fun a => (w.heap a).Name) l w [] w1 r hflag
      hloop (fun a => Or.inl rfl) (fun a hm => by simp at hm)).2

/-- The range `5` with the flag unset: both proxies are in the result with rewritten
names. -/
theorem inactive_speed_stage_cleanup_witness :
    ∃ b1 w1 r, preFilter goLib speedQuery5 cleanupWorld = some (b1, w1) ∧
      b1.Proxies = some r ∧
      ∀ a, some a ∈ r → (w1.heap a).Name = stripSpeedTag (cleanupWorld.heap a).Name :=
  (inactive_speed_stage_cleanup goLib speedQuery5 cleanupWorld [some 0, some 1] rfl
    (by decide) (by decide) (by decide)).2.1

/-! ## C12: a proxy excluded by an earlier stage -/

/-- C12: an iteration whose proxy is excluded by the type, stream allow, stream deny,
country deny, country allow or custom-code stage leaves the whole state as it was: no
name is rewritten and no stat is created or modified. After `preFilter`, a proxy that
fails one of these stages on the name it had before the call has the same name (and the
same object) as before and is not in the result. -/
theorem excluded_proxy_untouched (lib : Lib) (b : Base) (w : World) (a : Nat)
    (hex : typeStage (locals lib b) (w.heap a) = false ∨
      streamStage (locals lib b) (w.heap a) = false ∨
      streamNotStage (locals lib b) (w.heap a) = false ∨
      notCountryStage (locals lib b) (w.heap a) = false ∨
      countryStage (locals lib b) (w.heap a) = false ∨
      filterStage (locals lib b) (w.heap a) = false) :
    visit lib (locals lib b) w a = (w, false) ∧
    (∀ b1 w1, preFilter lib b w = some (b1, w1) →
      w1.heap a = w.heap a ∧ ∀ r, b1.Proxies = some r → some a ∉ r) := by
  have he : earlyStages (locals lib b) (w.heap a) = false := by
    unfold earlyStages
    rcases hex with h | h | h | h | h | h <;> simp [h]
  refine ⟨visit_of_excluded lib _ w a he, fun b1 w1 hpre => ?_⟩
  unfold preFilter at hpre
  by_cases hv : checkErrorProxies b.Proxies = true
  · rw [hv] at hpre
    simp only [Bool.not_true, Bool.false_eq_true, if_false] at hpre
    rcases hloop : loop lib (locals lib b) (b.Proxies.getD []) w [] with _ | ⟨w2, r2⟩
    · rw [hloop] at hpre; simp at hpre
    · rw [hloop] at hpre
      simp only [Option.some.injEq, Prod.mk.injEq] at hpre
      obtain ⟨h1, h2⟩ := loop_excluded lib _ a _ w [] w2 r2 he hloop
      rw [← hpre.1, ← hpre.2]
      refine ⟨h1, fun r hr hm => ?_⟩
      simp only [Option.some.injEq] at hr
      rw [← hr] at hm
      simpa using h2 hm
  · simp only [Bool.not_eq_true] at hv
    rw [hv] at hpre
    simp only [Bool.not_false, if_true, Option.some.injEq, Prod.mk.injEq] at hpre
    rw [← hpre.1, ← hpre.2]
    refine ⟨rfl, fun r hr hm => ?_⟩
    simp only [Option.some.injEq] at hr
    rw [← hr] at hm
    simp at hm

/-- The proxy NodeC-Plain under the filter code `rp`: its iteration changes nothing. -/
theorem excluded_proxy_untouched_witness :
    (visit goLib (locals goLib relayQuery) relayWorld 2).1.ProxyStats = relayWorld.ProxyStats ∧
      (visit goLib (locals goLib relayQuery) relayWorld 2).2 = false :=
  have h := (excluded_proxy_untouched goLib relayQuery relayWorld 2
    (Or.inr (Or.inr (Or.inr (Or.inr (Or.inr (by decide))))))).1
  ⟨by rw [h], by rw [h]⟩

/-! ## C13: running the filter twice -/

/-- C13, as stated, fails. With the speed range `5,20` and the country deny-list `Mb`
the first run keeps the proxy and annotates its name, and the second run, over the
result or over the same list, excludes it because the annotation contains `Mb`. With an
empty registry and the speed flag set, the first run with the range `5` keeps the proxy
(the speed stage is not active while the registry is empty) and creates its stat, and
the second run excludes it. In both cases the three lists are the result of the first
run, of the second run over that result, and of the second run over the same list. -/
theorem rerun_differs :
    (preFilter goLib denyMbQuery speedWorld).bind (fun r1 =>
        (preFilter goLib r1.1 r1.2).bind fun r2 =>
          (preFilter goLib denyMbQuery r1.2).map fun r3 =>
            ([r1.1.Proxies, r2.1.Proxies, r3.1.Proxies], (r1.2.heap 0).Name))
      = some ([some [some 0], some [], some []], "X |12.30Mb") ∧
    (preFilter goLib speedQuery5Single emptyRegistryWorld).bind (fun r1 =>
        (preFilter goLib r1.1 r1.2).bind fun r2 =>
          (preFilter goLib speedQuery5Single r1.2).map fun r3 =>
            [r1.1.Proxies, r2.1.Proxies, r3.1.Proxies])
      = some [some [some 0], some [], some []] := by
  decide

/-- C13, amended: let the registry be non-empty before the first run, or the speed flag
unset, or the speed stage switched off. The first run over a list without nil elements
returns; if for every proxy of the list the six stages before the speed stage decide on
the name the first run has left as they decide on the name it had before, then a second
run with the same query, over the same list and also over the result list, returns the
same result list and leaves every proxy object, so every display name, as the first run
left it. -/
theorem filter_repeatable (lib : Lib) (b : Base) (w : World) (l : ProxyList)
    (hl : b.Proxies = some l) (hvalid : checkErrorProxies (some l) = true)
    (hnn : ∀ p ∈ l, p ≠ none) (hsteady : steadySpeed (locals lib b) w) :
    ∃ b1 w1 r, preFilter lib b w = some (b1, w1) ∧ b1.Proxies = some r ∧
      ((∀ a, some a ∈ l →
          earlyStages (locals lib b) (w1.heap a) = earlyStages (locals lib b) (w.heap a)) →
        (∃ w2, preFilter lib b w1 = some (b1, w2) ∧ w2.heap = w1.heap) ∧
        (∃ w3, preFilter lib b1 w1 = some (b1, w3) ∧ w3.heap = w1.heap)) := by
  obtain ⟨w1, r, hloop, hinv⟩ := run_reaches lib (locals lib b) w l hnn hsteady
  have hpre : preFilter lib b w = some ({ b with Proxies := some r }, w1) := by
    unfold preFilter
    rw [hl, hvalid]
    simp [hloop]
  refine ⟨_, w1, r, hpre, rfl, fun hearly => ?_⟩
  have hearly1 : ∀ a, some a ∈ l →
      earlyStages (locals lib b) (afterVisit lib (locals lib b) w a)
        = earlyStages (locals lib b) (w.heap a) := by
    intro a ha
    rw [← hinv.2.2.2.2 a ha]
    exact hearly a ha
  obtain ⟨w1a, hres⟩ := run_result lib (locals lib b) w l hnn hsteady hearly1
  rw [hloop] at hres
  simp only [Option.some.injEq, Prod.mk.injEq] at hres
  have hr : r = l.filter (keptBy (verdict (locals lib b) w)) := hres.2
  constructor
  · obtain ⟨w2, h2, hheap⟩ := rerun_result lib (locals lib b) w w1 l l hnn (fun p hp => hp)
      hinv hearly1
    refine ⟨w2, ?_, hheap⟩
    unfold preFilter
    rw [hl, hvalid]
    simp [h2, hr]
  · have hsub : ∀ p ∈ r, p ∈ l := by
      intro p hp
      rw [hr] at hp
      exact (List.mem_filter.1 hp).1
    obtain ⟨w3, h3, hheap⟩ := rerun_result lib (locals lib b) w w1 l r
      (fun p hp => hnn p (hsub p hp)) hsub hinv hearly1
    have hidem : r.filter (keptBy (verdict (locals lib b) w)) = r := by
      rw [hr, List.filter_filter]
      congr 1
      funext p
      simp
    rw [hidem] at h3
    have hloc : locals lib { b with Proxies := some r } = locals lib b := rfl
    by_cases hv : checkErrorProxies (some r) = true
    · refine ⟨w3, ?_, hheap⟩
      unfold preFilter
      simp only [hv, Bool.not_true, Bool.false_eq_true, if_false, Option.getD_some, hloc, h3]
    · refine ⟨w1, ?_, rfl⟩
      simp only [Bool.not_eq_true] at hv
      have hnil : r = [] := by
        rcases r with _ | ⟨p, t⟩
        · rfl
        · rcases p with _ | a
          · exact absurd rfl (hnn none (hsub none (by simp)))
          · simp [checkErrorProxies] at hv
      subst hnil
      simp [preFilter, checkErrorProxies]

/-- The range `5,20` alone, with the stat of speed 12.3: no stage reads the name before
the speed stage, and the second run over the same list returns what the first returned
and writes no object. -/
theorem filter_repeatable_witness :
    ∃ b1 w1 r, preFilter goLib speedQuery5_20 speedWorld = some (b1, w1) ∧
      b1.Proxies = some r ∧
      ∃ w2, preFilter goLib speedQuery5_20 w1 = some (b1, w2) ∧ w2.heap = w1.heap := by
  obtain ⟨b1, w1, r, h1, h2, h3⟩ := filter_repeatable goLib speedQuery5_20 speedWorld [some 0]
    rfl (by decide) (by decide) (Or.inl (by decide))
  exact ⟨b1, w1, r, h1, h2, (h3 (fun a _ => rfl)).1⟩

/-! ## C14: the name rewrite and the annotation -/

/-- C14: with strip the name rewrite of `preFilter` (a name without `" |"` is unchanged,
otherwise the text before the first `" |"` is kept) and the annotation of a base name the
base name followed by `" |"`, the speed formatted with `%5.2f` and `Mb`: stripping twice
is stripping once, and stripping an annotated stripped name gives the same as stripping
twice. -/
theorem strip_annotate_idempotent (lib : Lib) (n : String) (s : F64) :
    stripSpeedTag (stripSpeedTag n) = stripSpeedTag n ∧
    stripSpeedTag (stripSpeedTag n ++ (" |" ++ lib.Sprintf52 s ++ "Mb"))
      = stripSpeedTag (stripSpeedTag n) ∧
    speedTag lib s = " |" ++ lib.Sprintf52 s ++ "Mb" ∧
    (Contains n " |" = false → stripSpeedTag n = n) ∧
    (∀ pre post : List Char, n.data = pre ++ " |".data ++ post →
      (∀ p2 q2 : List Char, n.data = p2 ++ " |".data ++ q2 → pre.length ≤ p2.length) →
      stripSpeedTag n = String.mk pre) := by
  refine ⟨stripSpeedTag_idem n, ?_, rfl, (stripSpeedTag_spec n).1, (stripSpeedTag_spec n).2⟩
  rw [stripSpeedTag_idem]
  have h := stripSpeedTag_append (stripSpeedTag n) (lib.Sprintf52 s ++ "Mb")
    (stripSpeedTag_no_sep n)
  have e : " |" ++ lib.Sprintf52 s ++ "Mb" = " |" ++ (lib.Sprintf52 s ++ "Mb") :=
    String.append_assoc _ _ _
  rw [e, h]

/-- The name `X |9.99Mb |old`: its rewrite is `X`, also after the annotation of 12.3 has
been appended to it. -/
theorem strip_annotate_idempotent_witness :
    stripSpeedTag "X |9.99Mb |old" = "X" ∧
      stripSpeedTag (stripSpeedTag "X |9.99Mb |old" ++ (" |" ++ goLib.Sprintf52 speed12_3 ++ "Mb"))
        = stripSpeedTag (stripSpeedTag "X |9.99Mb |old") :=
  ⟨(strip_annotate_idempotent goLib "X |9.99Mb |old" speed12_3).2.2.2.2 "X".data
      "9.99Mb |old".data (by decide) (by
        intro p2 q2 h
        rcases p2 with _ | ⟨c, p3⟩
        · have h1 := congrArg List.head? h
          exact absurd h1 (by simp)
        · simp),
    (strip_annotate_idempotent goLib "X |9.99Mb |old" speed12_3).2.1⟩

/-! ## C15: at most one stat per identity -/

/-- C15: if no two stats of the registry share an identity, then none do after
`preFilter`, after `CleanBadProxies` and after a job of `CleanBadProxiesWithGrpool`,
whatever the list (duplicates included); and the identity of every proxy of the result
of `preFilter`, of every proxy returned by `CleanBadProxies` and of the proxy appended
by a job has exactly one stat. -/
theorem registry_ids_unique (w : World) (hn : (w.ProxyStats.map Stat.Id).Nodup) :
    (∀ (lib : Lib) (b b1 : Base) (w1 : World), preFilter lib b w = some (b1, w1) →
      (w1.ProxyStats.map Stat.Id).Nodup ∧
      ∀ r, b1.Proxies = some r → ∀ a, some a ∈ r →
        (w1.ProxyStats.map Stat.Id).count (w.heap a).Identifier = 1) ∧
    (∀ (env : Nat → Steps) (proxies : List Proxy) (w1 : World) (r : ProxyList),
      CleanBadProxies env proxies w = some (w1, r) →
      (w1.ProxyStats.map Stat.Id).Nodup ∧
      ∀ a, some a ∈ r → (w1.ProxyStats.map Stat.Id).count (w.heap a).Identifier = 1) ∧
    (∀ (ParseIP : String → Option IP) (steps : Steps) (pp : Proxy) (cproxies : ProxyList)
      (done : Nat),
      ((job ParseIP steps pp { world := w, cproxies := cproxies, done := done }).world.ProxyStats.map
        Stat.Id).Nodup ∧
      ∀ a, pp = some a →
        (job ParseIP steps pp { world := w, cproxies := cproxies, done := done }).cproxies
          = cproxies ++ [pp] →
        ((job ParseIP steps pp { world := w, cproxies := cproxies, done := done }).world.ProxyStats.map
          Stat.Id).count (w.heap a).Identifier = 1) := by
  refine ⟨?_, ?_, ?_⟩
  · intro lib b b1 w1 hpre
    unfold preFilter at hpre
    by_cases hv : checkErrorProxies b.Proxies = true
    · rw [hv] at hpre
      simp only [Bool.not_true, Bool.false_eq_true, if_false] at hpre
      rcases hloop : loop lib (locals lib b) (b.Proxies.getD []) w [] with _ | ⟨w2, r2⟩
      · rw [hloop] at hpre; simp at hpre
      · rw [hloop] at hpre
        simp only [Option.some.injEq, Prod.mk.injEq] at hpre
        obtain ⟨k, hk, _, hst⟩ := loop_registry lib _ _ w [] w2 r2 hloop
        simp only [List.nil_append] at hk
        subst hk
        obtain ⟨h1, _, h3⟩ := registerAll_ids (identities w.heap r2) w.ProxyStats
        rw [← hpre.1, ← hpre.2, hst]
        refine ⟨h1 hn, fun r hr a ha => ?_⟩
        simp only [Option.some.injEq] at hr
        rw [← hr] at ha
        apply count_eq_one_of_nodup_mem _ _ (h1 hn)
        apply h3
        unfold identities
        rw [List.mem_filterMap]
        exact ⟨some a, ha, rfl⟩
    · simp only [Bool.not_eq_true] at hv
      rw [hv] at hpre
      simp only [Bool.not_false, if_true, Option.some.injEq, Prod.mk.injEq] at hpre
      rw [← hpre.1, ← hpre.2]
      refine ⟨hn, fun r hr a ha => ?_⟩
      simp only [Option.some.injEq] at hr
      rw [← hr] at ha
      simp at ha
  · intro env proxies w1 r hc
    unfold CleanBadProxies at hc
    have hnf := cleanLoop_no_fault env proxies 0 w [] _ hc
    obtain ⟨w2, h1, _, _, h4, _, h6⟩ := cleanLoop_spec env proxies 0 w [] hnf
    rw [hc] at h1
    simp only [Option.some.injEq, Prod.mk.injEq, List.nil_append] at h1
    rw [h1.1]
    refine ⟨h4 hn, fun a ha => ?_⟩
    apply count_eq_one_of_nodup_mem _ _ (h4 hn)
    apply h6
    rw [← h1.2]
    exact ha
  · intro ParseIP steps pp cproxies done
    rcases job_cases ParseIP steps pp { world := w, cproxies := cproxies, done := done } with
      h | ⟨a, d, hpp, _, _, h⟩
    · rw [h]
      refine ⟨hn, fun a _ hcp => ?_⟩
      simp at hcp
    · rw [h]
      obtain ⟨k1, k2, _⟩ := ids_insert (w.heap a).Identifier (w.ProxyStats.map Stat.Id)
      rw [← map_Id_recordDelay (w.heap a).Identifier d] at k1 k2
      refine ⟨k1 hn, fun a1 ha1 _ => ?_⟩
      rw [hpp] at ha1
      simp only [Option.some.injEq] at ha1
      rw [← ha1]
      exact count_eq_one_of_nodup_mem _ _ (k1 hn) k2

/-- A job with a successful probe of a proxy that has no stat yet, in the registry of the
probe example: afterwards no two stats share an identity. -/
theorem registry_ids_unique_witness :
    ((job parseIPSample (stepsOk 150) (some 2) (startPass probeWorld)).world.ProxyStats.map
      Stat.Id).Nodup :=
  ((registry_ids_unique probeWorld (by decide)).2.2 parseIPSample (stepsOk 150) (some 2) [] 0).1

/-! ## C16: the success criterion of the prober -/

/-- C16: when no call of `testDelay` faults, `CleanBadProxies` returns exactly the
proxies of the input whose call returns a nil error and a nonzero delay, in input order.
A call that returns the delay 0, whatever the error, does not put the proxy in the list
and records nothing, in `CleanBadProxies` and in a job of `CleanBadProxiesWithGrpool`. -/
theorem CleanBadProxies_selects (env : Nat → Steps) (proxies : List Proxy) (w : World)
    (hnf : ∀ ip ∈ proxies.enum, testDelay (env ip.1) w.heap ip.2 ≠ Outcome.fault) :
    (∃ w1, CleanBadProxies env proxies w =
        some (w1, ((proxies.enum.filter fun ip =>
          (testDelay (env ip.1) w.heap ip.2).success.isSome).map Prod.snd))) ∧
    (∀ out : Outcome, out.success.isSome = true ↔
      ∃ d, out = Outcome.ret d none ∧ d ≠ 0) ∧
    (∀ (i : Nat) (p : Proxy) (rest : List Proxy) (w2 : World) (acc : ProxyList)
      (err : Option String), testDelay (env i) w2.heap p = Outcome.ret 0 err →
      cleanLoop env i (p :: rest) w2 acc = cleanLoop env (i + 1) rest w2 acc) ∧
    (∀ (ParseIP : String → Option IP) (steps : Steps) (pp : Proxy) (s : PassState)
      (err : Option String), testDelay steps s.world.heap pp = Outcome.ret 0 err →
      job ParseIP steps pp s = { s with done := s.done + 1 }) := by
  have hzero : ∀ err : Option String, (Outcome.ret 0 err).success = none := by
    intro err
    cases err <;> simp [Outcome.success]
  refine ⟨?_, ?_, ?_, ?_⟩
  · obtain ⟨w1, h1, _⟩ := cleanLoop_spec env proxies 0 w [] hnf
    exact ⟨w1, by simpa [CleanBadProxies, successfulFrom, List.enum] using h1⟩
  · intro out
    rcases out with _ | ⟨d, err⟩
    · simp [Outcome.success]
    · rcases err with _ | e
      · by_cases hd : d = 0 <;> simp [Outcome.success, hd]
      · simp [Outcome.success]
  · intro i p rest w2 acc err h
    exact cleanLoop_rejected env i p rest w2 acc (by rw [h]; simp) (by rw [h]; exact hzero err)
  · intro ParseIP steps pp s err h
    exact job_rejected ParseIP steps pp s (by rw [h]; exact hzero err)

/-- The first probe succeeds after 150, the second is refused, the third returns the
delay 0 without an error: only the first proxy is returned. -/
theorem CleanBadProxies_selects_witness :
    ∃ w1, CleanBadProxies
        (fun i => if i = 0 then stepsOk 150 else if i = 1 then stepsHeadError 30 else stepsOk 0)
        [some 0, some 1, some 2] probeWorld = some (w1, [some 0]) := by
  obtain ⟨w1, h⟩ := (CleanBadProxies_selects
    (fun i => if i = 0 then stepsOk 150 else if i = 1 then stepsHeadError 30 else stepsOk 0)
    [some 0, some 1, some 2] probeWorld (by decide)).1
  exact ⟨w1, h⟩

/-! ## C17: the IPv6 exclusion -/

/-- C17: evaluation of both passes on a proxy with the server `2001:db8::1`, an IPv6
literal, and a proxy with an IPv4 server, all probes succeeding. The jobs of
`CleanBadProxiesWithGrpool` keep the second proxy only; `CleanBadProxies`, which never
calls `isIPv6Address`, returns both. -/
theorem CleanBadProxies_keeps_ipv6 :
    isIPv6Address parseIPSample (probeWorld.heap 0).Server = true ∧
    (testDelay (stepsOk 150) probeWorld.heap (some 0)).success = some 150 ∧
    (runJobs parseIPSample [(some 0, stepsOk 150), (some 1, stepsOk 150)]
      (startPass probeWorld)).cproxies = [some 1] ∧
    (CleanBadProxies (fun _ => stepsOk 150) [some 0, some 1] probeWorld).map Prod.snd
      = some [some 0, some 1] := by
  decide

/-! ## C18: the registry effect of a probe -/

/-- C18: processing one proxy in `CleanBadProxies` or in a job of
`CleanBadProxiesWithGrpool` leaves the whole state as it is when `testDelay` returns an
error or a zero delay (and, in a job, when it faults or the server is an IPv6 literal).
When the proxy is accepted the registry is the one before with the delay recorded for
its identity: a stat found for the identity is the same stat with the measured delay, a
missing one is appended with that delay and zero speed and count, and the stat found for
any other identity is unchanged. -/
theorem probe_registry_effect (ParseIP : String → Option IP) (steps : Steps) (pp : Proxy)
    (s : PassState) :
    ((testDelay steps s.world.heap pp).success = none →
      job ParseIP steps pp s = { s with done := s.done + 1 }) ∧
    (∀ a d, pp = some a → (testDelay steps s.world.heap pp).success = some d →
      (isIPv6Address ParseIP (s.world.heap a).Server = true →
        job ParseIP steps pp s = { s with done := s.done + 1 }) ∧
      (isIPv6Address ParseIP (s.world.heap a).Server = false →
        job ParseIP steps pp s =
          { world := { s.world with
              ProxyStats := recordDelay (s.world.heap a).Identifier d s.world.ProxyStats }
            cproxies := s.cproxies ++ [some a]
            done := s.done + 1 })) ∧
    (∀ (env : Nat → Steps) (i : Nat) (rest : List Proxy) (w : World) (acc : ProxyList),
      (testDelay (env i) w.heap pp ≠ Outcome.fault →
        (testDelay (env i) w.heap pp).success = none →
        cleanLoop env i (pp :: rest) w acc = cleanLoop env (i + 1) rest w acc) ∧
      (∀ a d, pp = some a → (testDelay (env i) w.heap pp).success = some d →
        cleanLoop env i (pp :: rest) w acc =
          cleanLoop env (i + 1) rest
            { w with ProxyStats := recordDelay (w.heap a).Identifier d w.ProxyStats }
            (acc ++ [some a]))) ∧
    (∀ (id : String) (d : Int) (stats : List Stat),
      (∀ st, Find id stats = some st →
        Find id (recordDelay id d stats) = some { st with Delay := d }) ∧
      (Find id stats = none →
        recordDelay id d stats =
          stats ++ [{ Speed := F64.ofInt 0, Delay := d, ReqCount := 0, Id := id }] ∧
        Find id (recordDelay id d stats) =
          some { Speed := F64.ofInt 0, Delay := d, ReqCount := 0, Id := id }) ∧
      (∀ id1, id1 ≠ id → Find id1 (recordDelay id d stats) = Find id1 stats)) := by
  refine ⟨job_rejected ParseIP steps pp s, ?_, ?_, ?_⟩
  · intro a d hpp hs
    subst hpp
    exact ⟨job_ipv6 ParseIP steps a s, job_accepted ParseIP steps a s d hs⟩
  · intro env i rest w acc
    refine ⟨cleanLoop_rejected env i pp rest w acc, ?_⟩
    intro a d hpp hs
    subst hpp
    exact cleanLoop_accepted env i a rest w acc d hs
  · intro id d stats
    refine ⟨fun st hst => ?_, fun hnone => ⟨?_, ?_⟩, fun id1 hne => ?_⟩
    · rw [Find_recordDelay, hst]
      simp [UpdatePSDelay]
    · unfold recordDelay
      rw [hnone]
    · rw [Find_recordDelay, hnone]
      simp
    · rw [Find_recordDelay]
      rcases Find id1 stats with _ | s1 <;> simp [hne]

/-- A refused probe of the proxy whose stat has the delay 70: the job leaves the state
as it is, so the delay 70 stays. -/
theorem probe_registry_effect_witness :
    job parseIPSample (stepsHeadError 30) (some 1) (startPass probeWorld)
      = { startPass probeWorld with done := (startPass probeWorld).done + 1 } :=
  (probe_registry_effect parseIPSample (stepsHeadError 30) (some 1) (startPass probeWorld)).1
    (by decide)

/-! ## C19: a fault of `testDelay` in a job -/

/-- C19: a job of `CleanBadProxiesWithGrpool` whose call of `testDelay` faults leaves the
list and the state as they are and is counted as done. `testDelay` faults when the
decoded descriptor has no numeric `port`, or no numeric `alterId` for the type `vmess`.
A pass leaves the same list and the same state as the pass without the faulting jobs,
and counts every job as done. -/
theorem job_contains_fault (ParseIP : String → Option IP) :
    (∀ (steps : Steps) (pp : Proxy) (s : PassState),
      testDelay steps s.world.heap pp = Outcome.fault →
      job ParseIP steps pp s = { s with done := s.done + 1 }) ∧
    (∀ (steps : Steps) (heap : Nat → ProxyObj) (a : Nat) (d : Decoded),
      steps.unmarshal = Except.ok d →
      (d.portIsNumber = false ∨ ((heap a).TypeName = "vmess" ∧ d.alterIdIsNumber = false)) →
      testDelay steps heap (some a) = Outcome.fault) ∧
    (∀ (js : List (Proxy × Steps)) (s : PassState),
      (runJobs ParseIP js s).world =
        (runJobs ParseIP
          (js.filter fun j => decide (testDelay j.2 s.world.heap j.1 ≠ Outcome.fault)) s).world ∧
      (runJobs ParseIP js s).cproxies =
        (runJobs ParseIP
          (js.filter fun j => decide (testDelay j.2 s.world.heap j.1 ≠ Outcome.fault)) s).cproxies ∧
      (runJobs ParseIP js s).done = s.done + js.length) := by
  refine ⟨fun steps pp s h => ?_, fun steps heap a d hu hd => ?_, fun js s => ?_⟩
  · exact job_rejected ParseIP steps pp s (by rw [h]; rfl)
  · unfold testDelay
    rw [hu]
    rcases hd with hd | ⟨hv, hd⟩
    · simp [hd]
    · by_cases hp : d.portIsNumber = true
      · simp [hp, hv, hd]
      · simp [hp]
  · obtain ⟨h1, h2⟩ := runJobs_skip_faults ParseIP s.world.heap js s s rfl rfl rfl
    exact ⟨h1, h2, runJobs_done ParseIP js s⟩

/-- A descriptor without a numeric port: `testDelay` faults and the job only counts as
done. -/
theorem job_contains_fault_witness :
    job parseIPSample stepsNoPort (some 2) (startPass probeWorld)
      = { startPass probeWorld with done := (startPass probeWorld).done + 1 } :=
  (job_contains_fault parseIPSample).1 stepsNoPort (some 2) (startPass probeWorld)
    ((job_contains_fault parseIPSample).2.1 stepsNoPort probeWorld.heap 2
      { portIsNumber := false, alterIdIsNumber := true, serverIsString := true } rfl
      (Or.inl rfl))

/-! ## C20: the delay returned with an error -/

/-- C20: evaluation of `testDelay` on a call whose request through the proxy fails after
150: the pair received from the channel is returned as it is, the delay 150 together with
the error, not the delay 0. On the other error paths (the decoding, the dial of the
fallback path, `adapter.ParseProxy`) the delay returned is 0. -/
theorem testDelay_error_with_delay :
    testDelay (stepsHeadError 150) probeWorld.heap (some 1)
      = Outcome.ret 150 (some "context deadline exceeded") ∧
    testDelay { stepsOk 150 with unmarshal := Except.error "unexpected end of JSON input" }
      probeWorld.heap (some 1) = Outcome.ret 0 (some "unexpected end of JSON input") ∧
    testDelay { stepsOk 150 with unsupported := true, dial := (3000, some "i/o timeout") }
      probeWorld.heap (some 1) = Outcome.ret 0 (some "i/o timeout") ∧
    testDelay { stepsOk 150 with parseErr := some "unsupport proxy type" }
      probeWorld.heap (some 1) = Outcome.ret 0 (some "unsupport proxy type") := by
  decide

end ProxyPool
